import Mathlib

/-!
# gocah: the game round state machine of `main.go`

A shallow embedding of the game logic of `main.go` (`newGame`, `enterGame`,
`upsertPlayer`, `newRound`, `submitCard`, `revealRound`, `chooseWinner`) and
theorems about it.

Modelling conventions.

* A Go slice is a `List`.  The decks are created by `make([]string, n)` and are
  only ever re-sliced from the head (`s[k:]`), so their capacity equals their
  length and `s[:k]` faults exactly when `k` exceeds the length.  A hand is a
  window of seven cells of the response deck's backing array that no later
  deck slice covers; `append` on a hand of fewer than seven cards writes inside
  that window, so value semantics for hands and decks is exact.
* A run-time panic (index or slice bound out of range, division by zero) is
  `Except.error` with the `Fault` raised; a normal return is `Except.ok`.
* `*Game` receivers are explicit state passing: an operation takes the game and
  returns the game it leaves behind.
* Calls to the server-sent-event library are recorded as a list of `Event`s in
  the order they are issued; a rendered template is recorded by the name of the
  template and the data it was rendered from.
* `int` values are `Int`.  `Score += 1` is 64-bit two-complement addition
  (`wrapInt64`): it wraps from the largest `int` to the smallest.  Card indices
  are only compared with lengths and used as indices.
* `rng.Perm(n)` is a parameter: the list of indices it returned.
-/

namespace Gocah

/-- The constant `InitialHand`. -/
def InitialHand : Nat := 7

/-- Run-time panics of the Go runtime that the game logic can raise. -/
inductive Fault where
  | indexOutOfRange
  | sliceBoundsOutOfRange
  | divideByZero
deriving DecidableEq, Repr

/-- The struct `Player`. -/
structure Player where
  Name : String
  Score : Int
  Cards : List String
deriving DecidableEq, Repr

/-- The struct `submission`. -/
structure submission where
  Player : String
  Card : String
deriving DecidableEq, Repr

/-- The struct `Game`. -/
structure Game where
  Name : String
  Players : List Player
  Question : String
  CardCzar : String
  Submitted : List submission
  Blackdeck : List String
  Whitedeck : List String
deriving DecidableEq, Repr

/-- The struct `GameView`. -/
structure GameView where
  Player : Player
  Game : Game
deriving DecidableEq, Repr

/-- What a published event carries: the template that was rendered and its data. -/
inductive Payload where
  | header (g : Game)
  | czarNotice
  | hand (v : GameView)
  | czarhand (g : Game)
deriving DecidableEq, Repr

/-- A call to the event server: `updates.CreateStream` or `updates.Publish`. -/
inductive Event where
  | createStream (topic : String)
  | publish (topic : String) (kind : String) (data : Payload)
deriving DecidableEq, Repr

/-- The errors `submitCard` returns, with the values their messages are built from. -/
inductive SubmitError where
  | roundNotStarted
  | unknownPlayer (player : String) (game : String)
  | duplicateSubmission (player : String)
  | invalidCard (card : Int)
deriving DecidableEq, Repr

/-- The topic `g.Name + "_" + player` of a player's event stream. -/
def topic (g : Game) (player : String) : String :=
  g.Name ++ "_" ++ player

/-- `Game.updateHeader`: one `header` event per player, in roster order. -/
def updateHeader (g : Game) : List Event :=
  g.Players.map (fun p => Event.publish (topic g p.Name) "header" (Payload.header g))

/-- `Game.updateHands`: one `hand` event per player, in roster order. -/
def updateHands (g : Game) : List Event :=
  g.Players.map (fun p =>
    if p.Name = g.CardCzar then
      Event.publish (topic g p.Name) "hand" Payload.czarNotice
    else
      Event.publish (topic g p.Name) "hand" (Payload.hand ⟨p, g⟩))

/-- `Game.revealRound`: one `hand` event on the card czar's stream. -/
def revealRound (g : Game) : List Event :=
  [Event.publish (topic g g.CardCzar) "hand" (Payload.czarhand g)]

/-- The loop `for i, j := range perm { dst[i] = src[j] }` of `newGame`. -/
def shuffleLoop (src : List String) : List Nat → Nat → List String → Except Fault (List String)
  | [], _, dst => .ok dst
  | j :: js, i, dst =>
    if i < dst.length then
      match src[j]? with
      | some c => shuffleLoop src js (i + 1) (dst.set i c)
      | none => .error .indexOutOfRange
    else .error .indexOutOfRange

/-- The shuffled copy `make([]string, len(src))` filled by the loop over `perm`. -/
def shuffle (src : List String) (perm : List Nat) : Except Fault (List String) :=
  shuffleLoop src perm 0 (List.replicate src.length "")

/-- `newGame`, given the source decks and the two results of `rng.Perm`.  In the draw
`game.Question, game.Blackdeck = game.Blackdeck[0], game.Blackdeck[1:]` the slice
expression is evaluated before the index expression, so that an empty shuffled prompt
deck raises a slice bound out of range (`[1:0]`). -/
def newGame (blackDeck whiteDeck : List String) (permB permW : List Nat) (name : String) :
    Except Fault Game :=
  match shuffle blackDeck permB with
  | .error f => .error f
  | .ok black =>
    match shuffle whiteDeck permW with
    | .error f => .error f
    | .ok white =>
      match black with
      | [] => .error .sliceBoundsOutOfRange
      | q :: rest =>
        .ok { Name := name, Players := [], Question := q, CardCzar := "", Submitted := [],
              Blackdeck := rest, Whitedeck := white }

/-- The first loop of `upsertPlayer`: the first player with the given name. -/
def lookupPlayer (name : String) : List Player → Option Player
  | [] => none
  | p :: ps => if p.Name = name then some p else lookupPlayer name ps

/-- `Game.upsertPlayer`: the player returned, the game left behind, the events issued. -/
def upsertPlayer (g : Game) (name : String) : Except Fault (Player × Game × List Event) :=
  match lookupPlayer name g.Players with
  | some p => .ok (p, g, [])
  | none =>
    if g.Whitedeck.length < InitialHand then .error .sliceBoundsOutOfRange
    else
      let player : Player :=
        { Name := name, Score := 0, Cards := g.Whitedeck.take InitialHand }
      let g1 : Game := { g with Whitedeck := g.Whitedeck.drop InitialHand }
      let g2 : Game := { g1 with Players := g1.Players ++ [player] }
      let g3 : Game := if g2.Players.length = 1 then { g2 with CardCzar := name } else g2
      let hands := if g3.Players.length = 2 then updateHands g3 else []
      .ok (player, g3, hands ++ [Event.createStream (topic g3 name)] ++ updateHeader g3)

/-- The registry `games`: a finite map from game name to game. -/
abbrev Registry := String → Option Game

/-- `enterGame`, given the registry, the source decks and the results `rng.Perm`
would return if the game has to be created.  The registry returned is the one a normal
return leaves behind; a panic in `upsertPlayer` comes after `games[gameName] = game`
and before any change to the game, so it leaves a newly created game registered without
a player. -/
def enterGame (games : Registry) (blackDeck whiteDeck : List String) (permB permW : List Nat)
    (gameName playerName : String) : Except Fault (GameView × Registry × List Event) :=
  let created : Except Fault Game :=
    match games gameName with
    | some g => .ok g
    | none => newGame blackDeck whiteDeck permB permW gameName
  match created with
  | .error f => .error f
  | .ok game =>
    match upsertPlayer game playerName with
    | .error f => .error f
    | .ok (player, game1, evs) =>
      .ok (⟨player, game1⟩, fun k => if k = gameName then some game1 else games k, evs)

/-- The czar loop of `newRound`: the name of the new card czar. -/
def rotateLoop (all : List Player) (czar : String) : List Player → Nat → Except Fault String
  | [], _ => .ok czar
  | p :: ps, i =>
    if p.Name = czar then
      if all.length = 0 then .error .divideByZero
      else
        match all[(i + 1) % all.length]? with
        | some q => .ok q.Name
        | none => .error .indexOutOfRange
    else rotateLoop all czar ps (i + 1)

/-- The dealing loop of `newRound` over the players not yet visited. -/
def dealLoop : List Player → List String → Except Fault (List Player × List String)
  | [], deck => .ok ([], deck)
  | p :: ps, deck =>
    if InitialHand ≤ p.Cards.length then
      match dealLoop ps deck with
      | .error f => .error f
      | .ok (ps1, deck1) => .ok (p :: ps1, deck1)
    else
      match deck with
      | [] => .error .indexOutOfRange
      | c :: rest =>
        match dealLoop ps rest with
        | .error f => .error f
        | .ok (ps1, deck1) => .ok ({ p with Cards := p.Cards ++ [c] } :: ps1, deck1)

/-- `Game.newRound`. -/
def newRound (g : Game) : Except Fault (Game × List Event) :=
  let g1 : Game := { g with Submitted := [] }
  match g1.Blackdeck with
  | [] => .ok (g1, [])
  | q :: rest =>
    let g2 : Game := { g1 with Question := q, Blackdeck := rest }
    match rotateLoop g2.Players g2.CardCzar g2.Players 0 with
    | .error f => .error f
    | .ok czar =>
      let g3 : Game := { g2 with CardCzar := czar }
      let header := updateHeader g3
      if g3.Whitedeck.length < g3.Players.length then .ok (g3, header)
      else
        match dealLoop g3.Players g3.Whitedeck with
        | .error f => .error f
        | .ok (ps, deck) =>
          let g4 : Game := { g3 with Players := ps, Whitedeck := deck }
          .ok (g4, header ++ updateHands g4)

/-- The player loop of `submitCard`: position and value of the last player with
the given name (the loop has no `break`). -/
def findPlayerLoop (playerName : String) :
    List Player → Nat → Option (Nat × Player) → Option (Nat × Player)
  | [], _, acc => acc
  | p :: ps, i, acc =>
    findPlayerLoop playerName ps (i + 1) (if p.Name = playerName then some (i, p) else acc)

/-- The submission loop of `submitCard`: has the player submitted this round. -/
def hasSubmitted (playerName : String) : List submission → Bool
  | [] => false
  | s :: ss => if s.Player = playerName then true else hasSubmitted playerName ss

/-- `Game.submitCard`: the game left behind, the events issued and the error returned
(`none` for `nil`). -/
def submitCard (g : Game) (playerName : String) (card : Int) :
    Except Fault (Game × List Event × Option SubmitError) :=
  if g.Players.length < 2 then .ok (g, [], some .roundNotStarted)
  else
    match findPlayerLoop playerName g.Players 0 none with
    | none => .ok (g, [], some (.unknownPlayer playerName g.Name))
    | some (idx, player) =>
      if hasSubmitted playerName g.Submitted then
        .ok (g, [], some (.duplicateSubmission playerName))
      else if (player.Cards.length : Int) ≤ card then
        .ok (g, [], some (.invalidCard card))
      else if card < 0 then .error .indexOutOfRange
      else
        match player.Cards[card.toNat]? with
        | none => .error .indexOutOfRange
        | some c =>
          let hand := player.Cards.take card.toNat ++ player.Cards.drop (card.toNat + 1)
          let g1 : Game :=
            { g with Submitted := g.Submitted ++ [⟨playerName, c⟩],
                     Players := g.Players.set idx { player with Cards := hand } }
          let reveal :=
            if (g1.Submitted.length : Int) = (g1.Players.length : Int) - 1 then revealRound g1
            else []
          .ok (g1, reveal, none)

/-- The value of a 64-bit signed `int` after an arithmetic result `x`: reduction modulo
`2^64` into the range from `-2^63` to `2^63 - 1`. -/
def wrapInt64 (x : Int) : Int :=
  (x + 9223372036854775808) % 18446744073709551616 - 9223372036854775808

/-- The largest value of a 64-bit signed `int`. -/
def maxInt64 : Int := 9223372036854775807

/-- The smallest value of a 64-bit signed `int`. -/
def minInt64 : Int := -9223372036854775808

/-- The score after `n` executions of `Score += 1`. -/
def scoreAfter (n : Nat) (score : Int) : Int :=
  Nat.iterate (fun x => wrapInt64 (x + 1)) n score

/-- The scoring loop of `chooseWinner`: `g.Players[i].Score += 1` for every player with
the given name. -/
def addPoint (player : String) (ps : List Player) : List Player :=
  ps.map (fun p => if p.Name = player then { p with Score := wrapInt64 (p.Score + 1) } else p)

/-- `Game.chooseWinner`. -/
def chooseWinner (g : Game) (player : String) : Except Fault (Game × List Event) :=
  newRound { g with Players := addPoint player g.Players }

/-- The three actions a client can issue on a game. -/
inductive Action where
  | join (player : String)
  | submit (player : String) (card : Int)
  | choose (player : String)
deriving DecidableEq, Repr

/-- The game an action leaves behind. -/
def step (g : Game) : Action → Except Fault Game
  | .join p =>
    match upsertPlayer g p with
    | .error f => .error f
    | .ok (_, g1, _) => .ok g1
  | .submit p c =>
    match submitCard g p c with
    | .error f => .error f
    | .ok (g1, _, _) => .ok g1
  | .choose p =>
    match chooseWinner g p with
    | .error f => .error f
    | .ok (g1, _) => .ok g1

/-- Run a sequence of actions, stopping at the first panic. -/
def run (g : Game) : List Action → Except Fault Game
  | [] => .ok g
  | a :: as =>
    match step g a with
    | .error f => .error f
    | .ok g1 => run g1 as

/-- The names of the roster, in order. -/
def names (g : Game) : List String := g.Players.map (fun p => p.Name)

/-- The players of the submissions, in order of arrival. -/
def submitters (g : Game) : List String := g.Submitted.map (fun s => s.Player)

/-- The contract of `rng.Perm(n)`: a rearrangement of `0, ..., n-1`. -/
def IsPermOf (perm : List Nat) (n : Nat) : Prop := perm.Perm (List.range n)

instance (perm : List Nat) (n : Nat) : Decidable (IsPermOf perm n) := by
  unfold IsPermOf
  infer_instance

/-- The games reachable from `g0` by join, submit and choose-winner calls that return.
A call that panics is not a step: `upsertPlayer` and `submitCard` raise their panics
before the first assignment to the game, so such a call leaves the game as it was. -/
inductive Reachable (g0 : Game) : Game → Prop where
  | init : Reachable g0 g0
  | next (g g1 : Game) (a : Action) : Reachable g0 g → step g a = .ok g1 → Reachable g0 g1

/-- The action is not a submit under the name of the current card czar. -/
def czarAbstains (g : Game) : Action → Prop
  | .submit p _ => p ≠ g.CardCzar
  | _ => True

instance (g : Game) (a : Action) : Decidable (czarAbstains g a) := by
  cases a <;> unfold czarAbstains <;> infer_instance

/-- The games reachable from `g0` by calls that return, none of them a submit under the
name of the card czar of the moment. -/
inductive ReachableCzarAbstaining (g0 : Game) : Game → Prop where
  | init : ReachableCzarAbstaining g0 g0
  | next (g g1 : Game) (a : Action) : ReachableCzarAbstaining g0 g → czarAbstains g a →
      step g a = .ok g1 → ReachableCzarAbstaining g0 g1

/-- The games reachable from `g0` by join and submit calls that return, with no
choose-winner call in between. -/
inductive SameRound (g0 : Game) : Game → Prop where
  | init : SameRound g0 g0
  | join (g g1 : Game) (p : String) : SameRound g0 g → step g (.join p) = .ok g1 →
      SameRound g0 g1
  | submit (g g1 : Game) (p : String) (c : Int) : SameRound g0 g →
      step g (.submit p c) = .ok g1 → SameRound g0 g1

/-- The roster and submission invariant kept by every call as long as the card czar does
not submit: distinct names, distinct submitters, submitters in the roster, the czar not
among them and, once a player exists, in the roster. -/
def RoundInv (g : Game) : Prop :=
  (names g).Nodup ∧ (submitters g).Nodup ∧ (∀ s ∈ submitters g, s ∈ names g) ∧
  g.CardCzar ∉ submitters g ∧ (g.Players ≠ [] → g.CardCzar ∈ names g)

/-- The hands of the roster, in roster order. -/
def hands (g : Game) : List (List String) := g.Players.map (fun p => p.Cards)

/-- The scores of the roster, in roster order. -/
def scores (g : Game) : List Int := g.Players.map (fun p => p.Score)

/-- The response cards a game holds: the response deck followed by every hand. -/
def responseCards (g : Game) : List String := g.Whitedeck ++ (hands g).flatten

/-- The number of players whose hand is below `InitialHand`. -/
def shortHanded (ps : List Player) : Nat :=
  ps.countP (fun p => decide (p.Cards.length < InitialHand))

/-- The roster invariant kept by every call: distinct names and, once a player exists,
the card czar in the roster. -/
def RosterInv (g : Game) : Prop :=
  (names g).Nodup ∧ (g.Players ≠ [] → g.CardCzar ∈ names g)

/-- No hand of the roster is above `InitialHand`. -/
def HandsBounded (g : Game) : Prop :=
  ∀ p ∈ g.Players, p.Cards.length ≤ InitialHand

/-! ## Concrete games used to evaluate the operations -/

/-- A source response deck of sixteen cards. -/
def sampleWhite : List String :=
  ["w0", "w1", "w2", "w3", "w4", "w5", "w6", "w7", "w8", "w9", "w10", "w11", "w12", "w13",
   "w14", "w15"]

/-- A source prompt deck of three cards. -/
def sampleBlack : List String := ["q0", "q1", "q2"]

/-- The game `newGame` returns on the sample decks with identity permutations. -/
def sampleFresh : Game :=
  { Name := "g1", Players := [], Question := "q0", CardCzar := "", Submitted := [],
    Blackdeck := ["q1", "q2"], Whitedeck := sampleWhite }

/-- The sample game after alice and then bob have joined. -/
def sampleRound : Game :=
  { Name := "g1",
    Players := [⟨"alice", 0, ["w0", "w1", "w2", "w3", "w4", "w5", "w6"]⟩,
                ⟨"bob", 0, ["w7", "w8", "w9", "w10", "w11", "w12", "w13"]⟩],
    Question := "q0", CardCzar := "alice", Submitted := [],
    Blackdeck := ["q1", "q2"], Whitedeck := ["w14", "w15"] }

/-- The sample round after bob has submitted the card at position 0. -/
def sampleRevealed : Game :=
  { sampleRound with
    Players := [⟨"alice", 0, ["w0", "w1", "w2", "w3", "w4", "w5", "w6"]⟩,
                ⟨"bob", 0, ["w8", "w9", "w10", "w11", "w12", "w13"]⟩],
    Submitted := [⟨"bob", "w7"⟩] }

/-- A two-player game in which bob holds the same card text twice. -/
def sampleDuplicates : Game :=
  { Name := "g2",
    Players := [⟨"alice", 2, ["a", "b"]⟩, ⟨"bob", 1, ["x", "x", "y"]⟩],
    Question := "q", CardCzar := "alice", Submitted := [],
    Blackdeck := ["r"], Whitedeck := [] }

/-- The game `sampleDuplicates` after bob has submitted the card at position 1. -/
def sampleDuplicatesAfter : Game :=
  { sampleDuplicates with
    Players := [⟨"alice", 2, ["a", "b"]⟩, ⟨"bob", 1, ["x", "y"]⟩],
    Submitted := [⟨"bob", "x"⟩] }

/-- The sample round after the card czar alice and then bob have each submitted the card
at position 0. -/
def sampleOverfull : Game :=
  { sampleRound with
    Players := [⟨"alice", 0, ["w1", "w2", "w3", "w4", "w5", "w6"]⟩,
                ⟨"bob", 0, ["w8", "w9", "w10", "w11", "w12", "w13"]⟩],
    Submitted := [⟨"alice", "w0"⟩, ⟨"bob", "w7"⟩] }

/-- The sample game after alice has joined. -/
def sampleAlice : Game :=
  { sampleFresh with
    Players := [⟨"alice", 0, ["w0", "w1", "w2", "w3", "w4", "w5", "w6"]⟩],
    CardCzar := "alice",
    Whitedeck := ["w7", "w8", "w9", "w10", "w11", "w12", "w13", "w14", "w15"] }

/-- The game `sampleRevealed` after the card czar alice has submitted the card at
position 0 as well. -/
def sampleCzarAlso : Game :=
  { sampleRevealed with
    Players := [⟨"alice", 0, ["w1", "w2", "w3", "w4", "w5", "w6"]⟩,
                ⟨"bob", 0, ["w8", "w9", "w10", "w11", "w12", "w13"]⟩],
    Submitted := [⟨"bob", "w7"⟩, ⟨"alice", "w0"⟩] }

/-- A three-player game with alice as card czar and three prompts left. -/
def sampleTrio : Game :=
  { Name := "g4",
    Players := [⟨"alice", 3, ["a"]⟩, ⟨"bob", 0, ["b"]⟩, ⟨"carol", 5, ["c"]⟩],
    Question := "q0", CardCzar := "alice", Submitted := [],
    Blackdeck := ["q1", "q2", "q3"], Whitedeck := ["d"] }

/-- A two-player game whose prompt deck is exhausted, with one submission. -/
def sampleExhausted : Game :=
  { Name := "g5",
    Players := [⟨"alice", 0, ["a"]⟩, ⟨"bob", 0, ["b"]⟩],
    Question := "q9", CardCzar := "alice", Submitted := [⟨"bob", "x"⟩],
    Blackdeck := [], Whitedeck := ["c", "d", "e"] }

/-- The game `sampleExhausted` after `chooseWinner` has been called with bob. -/
def sampleExhaustedAfter : Game :=
  { sampleExhausted with
    Players := [⟨"alice", 0, ["a"]⟩, ⟨"bob", 1, ["b"]⟩], Submitted := [] }

/-- The game `sampleRevealed` after `chooseWinner` has been called with bob. -/
def sampleNextRound : Game :=
  { Name := "g1",
    Players := [⟨"alice", 0, ["w0", "w1", "w2", "w3", "w4", "w5", "w6"]⟩,
                ⟨"bob", 1, ["w8", "w9", "w10", "w11", "w12", "w13", "w14"]⟩],
    Question := "q1", CardCzar := "bob", Submitted := [],
    Blackdeck := ["q2"], Whitedeck := ["w15"] }

/-- A game without players, cards and prompts. -/
def sampleEmpty : Game :=
  { Name := "g0", Players := [], Question := "", CardCzar := "", Submitted := [],
    Blackdeck := [], Whitedeck := [] }

/-- A game with a single player, the round not started. -/
def sampleLonely : Game :=
  { Name := "g3", Players := [⟨"alice", 0, ["a", "b"]⟩], Question := "q",
    CardCzar := "alice", Submitted := [], Blackdeck := [], Whitedeck := ["c", "d", "e"] }

/-! ## Lemmas on the loops of `submitCard` -/

theorem findPlayerLoop_eq_none (name : String) (ps : List Player) (i : Nat)
    (acc : Option (Nat × Player)) :
    findPlayerLoop name ps i acc = none ↔ acc = none ∧ ∀ p ∈ ps, p.Name ≠ name := by
  induction ps generalizing i acc with
  | nil => simp [findPlayerLoop]
  | cons p ps ih =>
    rw [findPlayerLoop, ih]
    by_cases hp : p.Name = name <;> simp [hp]

theorem findPlayerLoop_eq_some (name : String) (ps : List Player) (i : Nat)
    (acc : Option (Nat × Player)) (k : Nat) (pl : Player)
    (h : findPlayerLoop name ps i acc = some (k, pl)) :
    (acc = some (k, pl) ∧ ∀ p ∈ ps, p.Name ≠ name) ∨
    (i ≤ k ∧ ps[k - i]? = some pl ∧ pl.Name = name ∧
      ∀ m q, k - i < m → ps[m]? = some q → q.Name ≠ name) := by
  induction ps generalizing i acc with
  | nil => left; simpa [findPlayerLoop] using h
  | cons p ps ih =>
    rw [findPlayerLoop] at h
    rcases ih _ _ h with ⟨hacc, hno⟩ | ⟨hik, hget, hname, hlater⟩
    · by_cases hp : p.Name = name
      · right
        simp only [hp, if_true, Option.some.injEq, Prod.mk.injEq] at hacc
        obtain ⟨rfl, rfl⟩ := hacc
        refine ⟨le_refl _, by simp, hp, ?_⟩
        intro m q hm hq
        cases m with
        | zero => omega
        | succ m =>
          simp only [List.getElem?_cons_succ] at hq
          exact hno q (List.getElem?_mem hq)
      · left
        simp only [hp, if_false] at hacc
        refine ⟨hacc, ?_⟩
        intro q hq
        rcases List.mem_cons.mp hq with rfl | hq
        · exact hp
        · exact hno q hq
    · right
      have hk : k - i = (k - (i + 1)) + 1 := by omega
      refine ⟨by omega, ?_, hname, ?_⟩
      · rw [hk, List.getElem?_cons_succ]; exact hget
      · intro m q hm hq
        cases m with
        | zero => omega
        | succ m =>
          simp only [List.getElem?_cons_succ] at hq
          exact hlater m q (by omega) hq

theorem hasSubmitted_iff (name : String) (ss : List submission) :
    hasSubmitted name ss = true ↔ name ∈ ss.map (fun s => s.Player) := by
  induction ss with
  | nil => simp [hasSubmitted]
  | cons s ss ih =>
    rw [hasSubmitted]
    by_cases hs : s.Player = name
    · simp [hs]
    · simp [hs, ih]; intro h; exact absurd h.symm hs

/-- With two or more players, a name of the roster and no earlier submission, the
checks of `submitCard` leave the decision to the card index. -/
theorem submitCard_valid_player (g : Game) (p : String) (card : Int)
    (h2 : 2 ≤ g.Players.length) (hin : p ∈ names g) (hns : p ∉ submitters g) :
    ∃ idx pl, findPlayerLoop p g.Players 0 none = some (idx, pl) ∧
      g.Players[idx]? = some pl ∧ pl.Name = p ∧
      (∀ m q, idx < m → g.Players[m]? = some q → q.Name ≠ p) ∧
      submitCard g p card =
        if (pl.Cards.length : Int) ≤ card then .ok (g, [], some (.invalidCard card))
        else if card < 0 then .error .indexOutOfRange
        else
          match pl.Cards[card.toNat]? with
          | none => .error .indexOutOfRange
          | some c =>
            let hand := pl.Cards.take card.toNat ++ pl.Cards.drop (card.toNat + 1)
            let g1 : Game :=
              { g with Submitted := g.Submitted ++ [⟨p, c⟩],
                       Players := g.Players.set idx { pl with Cards := hand } }
            let reveal :=
              if (g1.Submitted.length : Int) = (g1.Players.length : Int) - 1 then revealRound g1
              else []
            .ok (g1, reveal, none) := by
  cases hf : findPlayerLoop p g.Players 0 none with
  | none =>
    exfalso
    have := (findPlayerLoop_eq_none p g.Players 0 none).mp hf
    simp only [names, List.mem_map] at hin
    obtain ⟨q, hq, hqn⟩ := hin
    exact this.2 q hq hqn
  | some r =>
    obtain ⟨idx, pl⟩ := r
    rcases findPlayerLoop_eq_some p g.Players 0 none idx pl hf with ⟨hacc, _⟩ | ⟨_, hget, hname, hlater⟩
    · exact absurd hacc (by simp)
    · refine ⟨idx, pl, rfl, by simpa using hget, hname, ?_, ?_⟩
      · intro m q hm hq
        exact hlater m q (by simpa using hm) hq
      · have hs : hasSubmitted p g.Submitted = false := by
          cases hb : hasSubmitted p g.Submitted with
          | false => rfl
          | true => exact absurd ((hasSubmitted_iff p g.Submitted).mp hb) hns
        have hlen : ¬ g.Players.length < 2 := by omega
        simp only [submitCard, hlen, if_false, hf, hs]
        rfl

theorem map_set_same {α β : Type} (f : α → β) (l : List α) (i : Nat) (a b : α)
    (h : l[i]? = some a) (hf : f b = f a) : (l.set i b).map f = l.map f := by
  induction l generalizing i with
  | nil => simp
  | cons x xs ih =>
    cases i with
    | zero =>
      simp only [List.getElem?_cons_zero, Option.some.injEq] at h
      subst h
      simp [hf]
    | succ i =>
      simp only [List.getElem?_cons_succ] at h
      simp [ih i h]

/-- With two or more players, a roster player that has not submitted and a negative
card index, `submitCard` panics with an index out of range. -/
theorem submitCard_negative_index (g : Game) (p : String) (card : Int)
    (h2 : 2 ≤ g.Players.length) (hin : p ∈ names g) (hns : p ∉ submitters g)
    (hneg : card < 0) :
    submitCard g p card = .error .indexOutOfRange := by
  obtain ⟨idx, pl, _, _, _, _, heq⟩ := submitCard_valid_player g p card h2 hin hns
  rw [heq]
  have h1 : ¬ (pl.Cards.length : Int) ≤ card := by omega
  simp [h1, hneg]

/-- The checks of `submitCard`: it checks round-not-started, unknown-player, duplicate-submission and
invalid-card in this order and returns the first that fails, leaving the game as it was:
the first three do not depend on the card index, the fourth is reached only when they
pass and the index is at or beyond the length of the hand. -/
theorem submitCard_checks (g : Game) (p : String) (card : Int) :
    (g.Players.length < 2 → submitCard g p card = .ok (g, [], some .roundNotStarted)) ∧
    (2 ≤ g.Players.length → p ∉ names g →
      submitCard g p card = .ok (g, [], some (.unknownPlayer p g.Name))) ∧
    (2 ≤ g.Players.length → p ∈ names g → p ∈ submitters g →
      submitCard g p card = .ok (g, [], some (.duplicateSubmission p))) ∧
    (2 ≤ g.Players.length → p ∈ names g → p ∉ submitters g →
      ∀ (idx : Nat) (pl : Player), g.Players[idx]? = some pl → pl.Name = p →
        (∀ (m : Nat) (q : Player), idx < m → g.Players[m]? = some q → q.Name ≠ p) →
        (pl.Cards.length : Int) ≤ card →
        submitCard g p card = .ok (g, [], some (.invalidCard card))) := by
  refine ⟨?_, ?_, ?_, ?_⟩
  · intro h
    simp [submitCard, h]
  · intro h2 hnot
    have hlen : ¬ g.Players.length < 2 := by omega
    have hf : findPlayerLoop p g.Players 0 none = none := by
      rw [findPlayerLoop_eq_none]
      refine ⟨rfl, ?_⟩
      intro q hq hqn
      exact hnot (by simp only [names, List.mem_map]; exact ⟨q, hq, hqn⟩)
    simp [submitCard, hlen, hf]
  · intro h2 hin hsub
    have hlen : ¬ g.Players.length < 2 := by omega
    have hs : hasSubmitted p g.Submitted = true := (hasSubmitted_iff p g.Submitted).mpr hsub
    cases hf : findPlayerLoop p g.Players 0 none with
    | none =>
      exfalso
      have := (findPlayerLoop_eq_none p g.Players 0 none).mp hf
      simp only [names, List.mem_map] at hin
      obtain ⟨q, hq, hqn⟩ := hin
      exact this.2 q hq hqn
    | some r =>
      obtain ⟨idx, pl⟩ := r
      simp [submitCard, hlen, hf, hs]
  · intro h2 hin hns idx pl hget hname hlast hcard
    obtain ⟨idx1, pl1, _, hget1, hname1, hlast1, heq⟩ :=
      submitCard_valid_player g p card h2 hin hns
    have hidx : idx1 = idx := by
      rcases Nat.lt_trichotomy idx1 idx with hlt | heq | hgt
      · exact absurd hname (hlast1 idx pl hlt hget)
      · exact heq
      · exact absurd hname1 (hlast idx1 pl1 hgt hget1)
    subst hidx
    have hpl : pl1 = pl := by
      rw [hget1] at hget
      exact Option.some.inj hget
    subst hpl
    rw [heq]
    simp [hcard]

/-- A successful `submitCard` appends the submission of the card at the given
position, removes exactly that position from the hand of the player (the last roster
entry with that name) keeping the order of the other cards, and changes nothing else:
names, scores, roster order, the other hands, both decks, the prompt and the czar. -/
theorem submitCard_ok_effect (g g1 : Game) (p : String) (card : Int) (evs : List Event)
    (h : submitCard g p card = .ok (g1, evs, none)) :
    ∃ (idx i : Nat) (pl : Player) (c : String),
      card = (i : Int) ∧ g.Players[idx]? = some pl ∧ pl.Name = p ∧
      (∀ m q, idx < m → g.Players[m]? = some q → q.Name ≠ p) ∧
      pl.Cards[i]? = some c ∧
      g1.Submitted = g.Submitted ++ [⟨p, c⟩] ∧
      g1.Players[idx]? =
        some { Name := pl.Name, Score := pl.Score, Cards := pl.Cards.eraseIdx i } ∧
      (∀ m, m ≠ idx → g1.Players[m]? = g.Players[m]?) ∧
      g1.Players.length = g.Players.length ∧
      g1.Players.map (fun q => q.Name) = g.Players.map (fun q => q.Name) ∧
      g1.Players.map (fun q => q.Score) = g.Players.map (fun q => q.Score) ∧
      g1.Name = g.Name ∧ g1.Question = g.Question ∧ g1.CardCzar = g.CardCzar ∧
      g1.Blackdeck = g.Blackdeck ∧ g1.Whitedeck = g.Whitedeck := by
  unfold submitCard at h
  split at h
  · simp at h
  · split at h
    · simp at h
    · rename_i idx pl hf
      split at h
      · simp at h
      · split at h
        · simp at h
        · split at h
          · simp at h
          · rename_i hlen hneg
            split at h
            · simp at h
            · rename_i c hc
              rcases findPlayerLoop_eq_some p g.Players 0 none idx pl hf with
                ⟨hacc, _⟩ | ⟨_, hget, hname, hlater⟩
              · exact absurd hacc (by simp)
              · simp only [Nat.sub_zero] at hget hlater
                simp only [Except.ok.injEq, Prod.mk.injEq] at h
                obtain ⟨hg, _, _⟩ := h
                subst hg
                have hidx : idx < g.Players.length := by
                  rcases List.getElem?_eq_some.mp hget with ⟨hh, _⟩
                  exact hh
                refine ⟨idx, card.toNat, pl, c, by omega, hget, hname, hlater, hc, rfl,
                  ?_, ?_, by simp, ?_, ?_, rfl, rfl, rfl, rfl, rfl⟩
                · simp [List.getElem?_set_self hidx, List.eraseIdx_eq_take_drop_succ]
                · intro m hm
                  simp [List.getElem?_set_ne (Ne.symm hm)]
                · exact map_set_same _ _ _ pl _ hget rfl
                · exact map_set_same _ _ _ pl _ hget rfl

/-! ## Joining -/

theorem lookupPlayer_eq_none (name : String) (ps : List Player) :
    lookupPlayer name ps = none ↔ ∀ p ∈ ps, p.Name ≠ name := by
  induction ps with
  | nil => simp [lookupPlayer]
  | cons p ps ih =>
    rw [lookupPlayer]
    by_cases hp : p.Name = name <;> simp [hp, ih]

theorem lookupPlayer_eq_some (name : String) (ps : List Player) (p : Player)
    (h : lookupPlayer name ps = some p) :
    ∃ idx : Nat, ps[idx]? = some p ∧ p.Name = name ∧
      ∀ (m : Nat) (q : Player), m < idx → ps[m]? = some q → q.Name ≠ name := by
  induction ps with
  | nil => simp [lookupPlayer] at h
  | cons x xs ih =>
    rw [lookupPlayer] at h
    by_cases hx : x.Name = name
    · simp only [hx, if_true, Option.some.injEq] at h
      subst h
      exact ⟨0, by simp, hx, by intro m q hm; omega⟩
    · simp only [hx, if_false] at h
      obtain ⟨idx, hget, hname, hfirst⟩ := ih h
      refine ⟨idx + 1, by simpa using hget, hname, ?_⟩
      intro m q hm hq
      cases m with
      | zero =>
        simp only [List.getElem?_cons_zero, Option.some.injEq] at hq
        subst hq
        exact hx
      | succ m =>
        simp only [List.getElem?_cons_succ] at hq
        exact hfirst m q (by omega) hq

theorem lookupPlayer_of_not_mem (g : Game) (name : String) (h : name ∉ names g) :
    lookupPlayer name g.Players = none := by
  rw [lookupPlayer_eq_none]
  intro q hq hqn
  exact h (by simp only [names, List.mem_map]; exact ⟨q, hq, hqn⟩)

/-- Joining under a name of the roster returns the first roster entry with that
name, leaves the game exactly as it was and issues no event. -/
theorem upsertPlayer_known (g : Game) (name : String) (h : name ∈ names g) :
    ∃ (idx : Nat) (p : Player), g.Players[idx]? = some p ∧ p.Name = name ∧
      (∀ (m : Nat) (q : Player), m < idx → g.Players[m]? = some q → q.Name ≠ name) ∧
      upsertPlayer g name = .ok (p, g, []) := by
  cases hl : lookupPlayer name g.Players with
  | none =>
    exfalso
    simp only [names, List.mem_map] at h
    obtain ⟨q, hq, hqn⟩ := h
    exact (lookupPlayer_eq_none name g.Players).mp hl q hq hqn
  | some p =>
    obtain ⟨idx, hget, hname, hfirst⟩ := lookupPlayer_eq_some name g.Players p hl
    exact ⟨idx, p, hget, hname, hfirst, by simp [upsertPlayer, hl]⟩

/-- Joining under a new name when the response deck
holds fewer than `InitialHand` cards panics with a slice bound out of range. -/
theorem upsertPlayer_short_deck (g : Game) (name : String) (hnew : name ∉ names g)
    (hshort : g.Whitedeck.length < InitialHand) :
    upsertPlayer g name = .error .sliceBoundsOutOfRange := by
  simp [upsertPlayer, lookupPlayer_of_not_mem g name hnew, hshort]

/-- Joining under a new name with at least `InitialHand` response cards: the new player
has score 0 and the first seven cards of the deck, is appended to the roster, becomes
card czar if the roster was empty, and the deck keeps the other cards. -/
theorem upsertPlayer_new (g : Game) (name : String) (hnew : name ∉ names g)
    (hdeck : InitialHand ≤ g.Whitedeck.length) :
    ∃ evs, upsertPlayer g name =
      .ok (⟨name, 0, g.Whitedeck.take InitialHand⟩,
           { g with Players := g.Players ++ [⟨name, 0, g.Whitedeck.take InitialHand⟩],
                    Whitedeck := g.Whitedeck.drop InitialHand,
                    CardCzar := if g.Players = [] then name else g.CardCzar }, evs) := by
  have hlen : ¬ g.Whitedeck.length < InitialHand := by omega
  by_cases hp : g.Players = []
  · simp only [upsertPlayer, lookupPlayer_of_not_mem g name hnew, hlen, if_false, hp]
    exact ⟨_, rfl⟩
  · have h1 : ¬ (g.Players ++ [(⟨name, 0, g.Whitedeck.take InitialHand⟩ : Player)]).length = 1 := by
      have : 0 < g.Players.length := List.length_pos.mpr hp
      simp only [List.length_append, List.length_singleton]
      omega
    simp only [upsertPlayer, lookupPlayer_of_not_mem g name hnew, hlen, if_false, hp, h1]
    exact ⟨_, rfl⟩

/-! ## Creating a game -/

theorem take_succ_set (dst : List String) (i : Nat) (c : String) (hi : i < dst.length) :
    (dst.set i c).take (i + 1) = dst.take i ++ [c] := by
  apply List.ext_getElem?
  intro m
  by_cases hm : m < i
  · rw [List.getElem?_take_of_lt (by omega), List.getElem?_set_ne (by omega),
      List.getElem?_append_left (by simp; omega), List.getElem?_take_of_lt hm]
  · by_cases hmi : m = i
    · subst hmi
      rw [List.getElem?_take_of_lt (by omega), List.getElem?_set_self hi,
        List.getElem?_append_right (by simp)]
      simp [Nat.min_eq_left (Nat.le_of_lt hi)]
    · rw [List.getElem?_take_eq_none (by omega), List.getElem?_eq_none]
      simp
      omega

theorem shuffleLoop_ok (src : List String) (js : List Nat) (i : Nat) (dst : List String)
    (hlen : i + js.length ≤ dst.length) (hj : ∀ j ∈ js, j < src.length) :
    shuffleLoop src js i dst =
      .ok (dst.take i ++ js.map (fun j => src.getD j "") ++ dst.drop (i + js.length)) := by
  induction js generalizing i dst with
  | nil => simp [shuffleLoop]
  | cons j js ih =>
    have hi : i < dst.length := by simp only [List.length_cons] at hlen; omega
    have hjlt : j < src.length := hj j (List.mem_cons_self j js)
    have hsrc : src[j]? = some (src.getD j "") := by
      simp [List.getElem?_eq_getElem hjlt]
    rw [shuffleLoop, if_pos hi, hsrc]
    simp only
    rw [ih (i + 1) (dst.set i (src.getD j ""))
      (by simp only [List.length_cons] at hlen; simp only [List.length_set]; omega)
      (fun k hk => hj k (List.mem_cons_of_mem j hk))]
    rw [take_succ_set dst i _ hi, List.drop_set_of_lt _ dst (by omega)]
    simp only [List.map_cons, List.length_cons, List.append_assoc, List.singleton_append]
    congr 4
    omega

theorem shuffle_ok (src : List String) (perm : List Nat) (h : IsPermOf perm src.length) :
    shuffle src perm = .ok (perm.map (fun j => src.getD j "")) := by
  have hl : perm.length = src.length := by
    have := h.length_eq
    simpa using this
  have hj : ∀ j ∈ perm, j < src.length := by
    intro j hjm
    exact List.mem_range.mp (h.subset hjm)
  rw [shuffle, shuffleLoop_ok src perm 0 _ (by simp [hl]) hj]
  simp [hl]

theorem newGame_ok (blackDeck whiteDeck : List String) (permB permW : List Nat) (name : String)
    (hb : blackDeck ≠ []) (hpB : IsPermOf permB blackDeck.length)
    (hpW : IsPermOf permW whiteDeck.length) :
    ∃ q rest, permB.map (fun j => blackDeck.getD j "") = q :: rest ∧
      rest.length = blackDeck.length - 1 ∧
      newGame blackDeck whiteDeck permB permW name =
        .ok { Name := name, Players := [], Question := q, CardCzar := "", Submitted := [],
              Blackdeck := rest, Whitedeck := permW.map (fun j => whiteDeck.getD j "") } := by
  have hl : (permB.map (fun j => blackDeck.getD j "")).length = blackDeck.length := by
    have := hpB.length_eq
    simpa using this
  cases hs : permB.map (fun j => blackDeck.getD j "") with
  | nil =>
    rw [hs] at hl
    exact absurd (List.length_eq_zero.mp hl.symm) hb
  | cons q rest =>
    refine ⟨q, rest, rfl, ?_, ?_⟩
    · rw [hs] at hl
      simp only [List.length_cons] at hl
      omega
    · simp only [newGame, shuffle_ok blackDeck permB hpB, shuffle_ok whiteDeck permW hpW, hs]

/-- The first `enterGame` on a game name that is not in the registry, with a non-empty
source prompt deck, panics in `upsertPlayer` when the source response deck holds fewer
than `InitialHand` cards. -/
theorem enterGame_short_deck (games : Registry)
    (blackDeck whiteDeck : List String) (permB permW : List Nat) (gameName p : String)
    (hnew : games gameName = none) (hb : blackDeck ≠ [])
    (hpB : IsPermOf permB blackDeck.length) (hpW : IsPermOf permW whiteDeck.length)
    (hshort : whiteDeck.length < InitialHand) :
    enterGame games blackDeck whiteDeck permB permW gameName p =
      .error .sliceBoundsOutOfRange := by
  obtain ⟨q, rest, _, _, hg⟩ := newGame_ok blackDeck whiteDeck permB permW gameName hb hpB hpW
  have hw : (permW.map (fun j => whiteDeck.getD j "")).length < InitialHand := by
    have := hpW.length_eq
    simp only [List.length_range] at this
    simpa [this] using hshort
  have hu := upsertPlayer_short_deck
    { Name := gameName, Players := [], Question := q, CardCzar := "", Submitted := [],
      Blackdeck := rest, Whitedeck := permW.map (fun j => whiteDeck.getD j "") } p
    (by simp [names]) hw
  simp only [enterGame, hnew, hg, hu]

/-- The first `enterGame` on a new game name, with a non-empty source prompt deck and at
least `InitialHand` source response cards: the game is registered, the player is the
card czar, the prompt is the first card of the shuffled prompt deck and the working
prompt deck holds the other cards. -/
theorem enterGame_first_join (games : Registry)
    (blackDeck whiteDeck : List String) (permB permW : List Nat) (gameName p : String)
    (hnew : games gameName = none) (hb : blackDeck ≠ [])
    (hpB : IsPermOf permB blackDeck.length) (hpW : IsPermOf permW whiteDeck.length)
    (hdeck : InitialHand ≤ whiteDeck.length) :
    ∃ view reg evs,
      enterGame games blackDeck whiteDeck permB permW gameName p = .ok (view, reg, evs) ∧
      reg gameName = some view.Game ∧
      view.Game.CardCzar = p ∧ names view.Game = [p] ∧
      view.Game.Question :: view.Game.Blackdeck = permB.map (fun j => blackDeck.getD j "") ∧
      view.Game.Blackdeck.length = blackDeck.length - 1 := by
  obtain ⟨q, rest, hqr, hrest, hg⟩ :=
    newGame_ok blackDeck whiteDeck permB permW gameName hb hpB hpW
  have hw : InitialHand ≤ (permW.map (fun j => whiteDeck.getD j "")).length := by
    have := hpW.length_eq
    simp only [List.length_range] at this
    simpa [this] using hdeck
  obtain ⟨evs, hu⟩ := upsertPlayer_new
    { Name := gameName, Players := [], Question := q, CardCzar := "", Submitted := [],
      Blackdeck := rest, Whitedeck := permW.map (fun j => whiteDeck.getD j "") } p
    (by simp [names]) hw
  have he : enterGame games blackDeck whiteDeck permB permW gameName p =
      .ok (⟨⟨p, 0, (permW.map (fun j => whiteDeck.getD j "")).take InitialHand⟩,
            { Name := gameName,
              Players := [⟨p, 0, (permW.map (fun j => whiteDeck.getD j "")).take InitialHand⟩],
              Question := q, CardCzar := p, Submitted := [], Blackdeck := rest,
              Whitedeck := (permW.map (fun j => whiteDeck.getD j "")).drop InitialHand }⟩,
           fun k => if k = gameName then some
            { Name := gameName,
              Players := [⟨p, 0, (permW.map (fun j => whiteDeck.getD j "")).take InitialHand⟩],
              Question := q, CardCzar := p, Submitted := [], Blackdeck := rest,
              Whitedeck := (permW.map (fun j => whiteDeck.getD j "")).drop InitialHand }
            else games k, evs) := by
    simp only [enterGame, hnew, hg, hu]
    rfl
  exact ⟨_, _, evs, he, by simp, rfl, rfl, hqr.symm, by simpa using hrest⟩

/-- A join into a game that already has a player changes neither the card czar nor the
prompt nor the prompt deck. -/
theorem upsertPlayer_keeps_round (g g1 : Game) (name : String) (p : Player) (evs : List Event)
    (hne : g.Players ≠ []) (h : upsertPlayer g name = .ok (p, g1, evs)) :
    g1.CardCzar = g.CardCzar ∧ g1.Question = g.Question ∧ g1.Blackdeck = g.Blackdeck := by
  by_cases hin : name ∈ names g
  · obtain ⟨_, q, _, _, _, hq⟩ := upsertPlayer_known g name hin
    rw [hq] at h
    simp only [Except.ok.injEq, Prod.mk.injEq] at h
    obtain ⟨_, hg, _⟩ := h
    subst hg
    exact ⟨rfl, rfl, rfl⟩
  · have hlen : InitialHand ≤ g.Whitedeck.length := by
      by_contra hc
      rw [upsertPlayer_short_deck g name hin (by omega)] at h
      cases h
    obtain ⟨evs1, hq⟩ := upsertPlayer_new g name hin hlen
    rw [hq] at h
    simp only [Except.ok.injEq, Prod.mk.injEq] at h
    obtain ⟨_, hg, _⟩ := h
    subst hg
    simp [hne]

/-! ## Choosing a winner and advancing the round -/

theorem rotateLoop_first (all : List Player) (czar : String) (ps : List Player) (i k : Nat)
    (p : Player) (hall : all ≠ []) (hget : ps[k]? = some p) (hname : p.Name = czar)
    (hfirst : ∀ (m : Nat) (q : Player), m < k → ps[m]? = some q → q.Name ≠ czar) :
    ∃ q, all[(i + k + 1) % all.length]? = some q ∧ rotateLoop all czar ps i = .ok q.Name := by
  induction ps generalizing i k with
  | nil => simp at hget
  | cons x xs ih =>
    have hpos : 0 < all.length := List.length_pos.mpr hall
    cases k with
    | zero =>
      simp only [List.getElem?_cons_zero, Option.some.injEq] at hget
      subst hget
      have hlt : (i + 1) % all.length < all.length := Nat.mod_lt _ hpos
      refine ⟨all[(i + 1) % all.length], by simp [List.getElem?_eq_getElem hlt], ?_⟩
      have hne : ¬ all.length = 0 := by omega
      simp [rotateLoop, hname, hne, List.getElem?_eq_getElem hlt]
    | succ k =>
      have hx : ¬ x.Name = czar := hfirst 0 x (by omega) (by simp)
      simp only [List.getElem?_cons_succ] at hget
      obtain ⟨q, hq, hr⟩ := ih (i + 1) k hget (by
        intro m r hm hr
        exact hfirst (m + 1) r (by omega) (by simpa using hr))
      refine ⟨q, ?_, ?_⟩
      · have : i + (k + 1) + 1 = i + 1 + k + 1 := by omega
        rw [this]; exact hq
      · rw [rotateLoop, if_neg hx]; exact hr

theorem rotateLoop_none (all : List Player) (czar : String) (ps : List Player) (i : Nat)
    (h : ∀ p ∈ ps, p.Name ≠ czar) : rotateLoop all czar ps i = .ok czar := by
  induction ps generalizing i with
  | nil => rfl
  | cons x xs ih =>
    have hx : ¬ x.Name = czar := h x (List.mem_cons_self x xs)
    rw [rotateLoop, if_neg hx]
    exact ih (i + 1) (fun p hp => h p (List.mem_cons_of_mem x hp))

theorem exists_first_named (czar : String) (ps : List Player) (h : ∃ p ∈ ps, p.Name = czar) :
    ∃ (k : Nat) (p : Player), ps[k]? = some p ∧ p.Name = czar ∧
      ∀ (m : Nat) (q : Player), m < k → ps[m]? = some q → q.Name ≠ czar := by
  cases hl : lookupPlayer czar ps with
  | none =>
    obtain ⟨p, hp, hn⟩ := h
    exact absurd hn ((lookupPlayer_eq_none czar ps).mp hl p hp)
  | some p =>
    obtain ⟨k, h1, h2, h3⟩ := lookupPlayer_eq_some czar ps p hl
    exact ⟨k, p, h1, h2, h3⟩

/-- The czar loop of `newRound` returns: it keeps the czar when no player has that name
and otherwise yields the name of a roster player. -/
theorem rotateLoop_total (ps : List Player) (czar : String) :
    ∃ c, rotateLoop ps czar ps 0 = .ok c ∧
      (c = czar ∨ c ∈ ps.map (fun p => p.Name)) ∧
      ((∃ p ∈ ps, p.Name = czar) → c ∈ ps.map (fun p => p.Name)) := by
  by_cases h : ∃ p ∈ ps, p.Name = czar
  · obtain ⟨k, p, hget, hname, hfirst⟩ := exists_first_named czar ps h
    have hall : ps ≠ [] := by
      intro hnil
      rw [hnil] at hget
      simp at hget
    obtain ⟨q, hq, hr⟩ := rotateLoop_first ps czar ps 0 k p hall hget hname hfirst
    have hmem : q.Name ∈ ps.map (fun p => p.Name) :=
      List.mem_map.mpr ⟨q, List.getElem?_mem hq, rfl⟩
    exact ⟨q.Name, hr, Or.inr hmem, fun _ => hmem⟩
  · have hno : ∀ p ∈ ps, p.Name ≠ czar := fun p hp hn => h ⟨p, hp, hn⟩
    exact ⟨czar, rotateLoop_none ps czar ps 0 hno, Or.inl rfl, fun h1 => absurd h1 h⟩

/-- The dealing loop returns when the deck has a card for every player, and changes
neither names nor scores. -/
theorem dealLoop_total (ps : List Player) (deck : List String) (h : ps.length ≤ deck.length) :
    ∃ ps1 deck1, dealLoop ps deck = .ok (ps1, deck1) ∧
      ps1.map (fun p => p.Name) = ps.map (fun p => p.Name) ∧
      ps1.map (fun p => p.Score) = ps.map (fun p => p.Score) ∧
      ps1.length = ps.length := by
  induction ps generalizing deck with
  | nil => exact ⟨[], deck, rfl, rfl, rfl, rfl⟩
  | cons p ps ih =>
    simp only [List.length_cons] at h
    by_cases hfull : InitialHand ≤ p.Cards.length
    · obtain ⟨ps1, deck1, hd, hn, hs, hl⟩ := ih deck (by omega)
      refine ⟨p :: ps1, deck1, ?_, by simp [hn], by simp [hs], by simp [hl]⟩
      simp [dealLoop, hfull, hd]
    · cases deck with
      | nil => simp at h
      | cons c rest =>
        simp only [List.length_cons] at h
        obtain ⟨ps1, deck1, hd, hn, hs, hl⟩ := ih rest (by omega)
        refine ⟨{ p with Cards := p.Cards ++ [c] } :: ps1, deck1, ?_, by simp [hn],
          by simp [hs], by simp [hl]⟩
        simp [dealLoop, hfull, hd]

/-- `newRound` returns for every game.  It empties the submissions and keeps the game
name, the names and the scores; with an empty prompt deck nothing else changes, and
otherwise the prompt is the head of the prompt deck and the czar is the result of the
czar loop. -/
theorem newRound_total (g : Game) :
    ∃ g1 evs, newRound g = .ok (g1, evs) ∧ g1.Submitted = [] ∧ g1.Name = g.Name ∧
      g1.Players.map (fun p => p.Name) = g.Players.map (fun p => p.Name) ∧
      g1.Players.map (fun p => p.Score) = g.Players.map (fun p => p.Score) ∧
      (g.Blackdeck = [] → g1 = { g with Submitted := [] } ∧ evs = []) ∧
      (∀ q rest, g.Blackdeck = q :: rest →
        g1.Question = q ∧ g1.Blackdeck = rest ∧
        rotateLoop g.Players g.CardCzar g.Players 0 = .ok g1.CardCzar) := by
  cases hb : g.Blackdeck with
  | nil =>
    refine ⟨{ g with Submitted := [] }, [], ?_, rfl, rfl, rfl, rfl, fun _ => ⟨by rw [hb], rfl⟩, ?_⟩
    · simp [newRound, hb]
    · intro q rest h
      cases h
  | cons q rest =>
    obtain ⟨c, hc, _, _⟩ := rotateLoop_total g.Players g.CardCzar
    by_cases hw : g.Whitedeck.length < g.Players.length
    · have hnr : ∃ evs, newRound g =
          .ok ({ g with Submitted := [], Question := q, Blackdeck := rest, CardCzar := c },
               evs) := by
        simp only [newRound, hb, hc, hw, if_true]
        exact ⟨_, rfl⟩
      obtain ⟨evs, hnr⟩ := hnr
      refine ⟨_, evs, hnr, rfl, rfl, rfl, rfl, fun h => absurd h (by simp), ?_⟩
      · intro q1 rest1 h
        simp only [List.cons.injEq] at h
        obtain ⟨rfl, rfl⟩ := h
        exact ⟨rfl, rfl, hc⟩
    · obtain ⟨ps1, deck1, hd, hn, hs, _⟩ :=
        dealLoop_total g.Players g.Whitedeck (by omega)
      have hnr : ∃ evs, newRound g =
          .ok ({ g with Submitted := [], Question := q, Blackdeck := rest, CardCzar := c,
                        Players := ps1, Whitedeck := deck1 }, evs) := by
        simp only [newRound, hb, hc, hw, if_false, hd]
        exact ⟨_, rfl⟩
      obtain ⟨evs, hnr⟩ := hnr
      refine ⟨_, evs, hnr, rfl, rfl, hn, hs, fun h => absurd h (by simp), ?_⟩
      · intro q1 rest1 h
        simp only [List.cons.injEq] at h
        obtain ⟨rfl, rfl⟩ := h
        exact ⟨rfl, rfl, hc⟩

theorem addPoint_names (player : String) (ps : List Player) :
    (addPoint player ps).map (fun p => p.Name) = ps.map (fun p => p.Name) := by
  induction ps with
  | nil => rfl
  | cons p ps ih =>
    simp only [addPoint, List.map_cons] at ih ⊢
    rw [ih]
    by_cases hp : p.Name = player <;> simp [hp]

theorem wrapInt64_of_range (x : Int) (h1 : minInt64 ≤ x) (h2 : x ≤ maxInt64) :
    wrapInt64 x = x := by
  unfold wrapInt64
  unfold minInt64 at h1
  unfold maxInt64 at h2
  omega

theorem wrapInt64_add_wrap (x k : Int) :
    wrapInt64 (wrapInt64 x + k) = wrapInt64 (x + k) := by
  unfold wrapInt64
  omega

theorem wrapInt64_max_succ : wrapInt64 (maxInt64 + 1) = minInt64 := by decide

theorem map_eq_getElem? {α β γ : Type} (f : α → γ) (h : β → γ) (l1 : List α) (l2 : List β)
    (heq : l1.map f = l2.map h) (i : Nat) (b : β) (hb : l2[i]? = some b) :
    ∃ a, l1[i]? = some a ∧ f a = h b := by
  have h1 : (l1.map f)[i]? = some (h b) := by
    rw [heq, List.getElem?_map, hb]; rfl
  rw [List.getElem?_map] at h1
  cases ha : l1[i]? with
  | none => rw [ha] at h1; simp at h1
  | some a =>
    rw [ha] at h1
    simp only [Option.map_some', Option.some.injEq] at h1
    exact ⟨a, rfl, h1⟩

theorem addPoint_scores (player : String) (ps : List Player) :
    (addPoint player ps).map (fun p => p.Score) =
      ps.map (fun p => if p.Name = player then wrapInt64 (p.Score + 1) else p.Score) := by
  induction ps with
  | nil => rfl
  | cons p ps ih =>
    simp only [addPoint, List.map_cons] at ih ⊢
    rw [ih]
    by_cases hp : p.Name = player <;> simp [hp]

theorem rotateLoop_congr (all all1 ps ps1 : List Player) (czar : String) (i : Nat)
    (hall : all.map (fun p => p.Name) = all1.map (fun p => p.Name))
    (hps : ps.map (fun p => p.Name) = ps1.map (fun p => p.Name)) :
    rotateLoop all czar ps i = rotateLoop all1 czar ps1 i := by
  have hlen : all.length = all1.length := by
    have := congrArg List.length hall
    simpa using this
  induction ps generalizing ps1 i with
  | nil =>
    cases ps1 with
    | nil => rfl
    | cons y ys => simp at hps
  | cons x xs ih =>
    cases ps1 with
    | nil => simp at hps
    | cons y ys =>
      simp only [List.map_cons, List.cons.injEq] at hps
      obtain ⟨hxy, hrest⟩ := hps
      rw [rotateLoop, rotateLoop, hxy, ih ys (i + 1) hrest, hlen]
      have hget : (all[(i + 1) % all1.length]?).map (fun p => p.Name) =
          (all1[(i + 1) % all1.length]?).map (fun p => p.Name) := by
        rw [← List.getElem?_map, ← List.getElem?_map, hall]
      cases h1 : all[(i + 1) % all1.length]? with
      | none =>
        rw [h1] at hget
        cases h2 : all1[(i + 1) % all1.length]? with
        | none => rfl
        | some b => rw [h2] at hget; simp at hget
      | some a =>
        rw [h1] at hget
        cases h2 : all1[(i + 1) % all1.length]? with
        | none => rw [h2] at hget; simp at hget
        | some b =>
          rw [h2] at hget
          simp only [Option.map_some', Option.some.injEq] at hget
          simp [hget]

theorem names_ne_of_nodup (ps : List Player) (hnd : (ps.map (fun p => p.Name)).Nodup)
    (i m : Nat) (p q : Player) (hi : ps[i]? = some p) (hm : ps[m]? = some q) (hne : m ≠ i) :
    q.Name ≠ p.Name := by
  intro heq
  have hi1 : (ps.map (fun p => p.Name))[i]? = some p.Name := by
    rw [List.getElem?_map, hi]; rfl
  have hm1 : (ps.map (fun p => p.Name))[m]? = some p.Name := by
    rw [List.getElem?_map, hm, ← heq]; rfl
  obtain ⟨hil, hie⟩ := List.getElem?_eq_some.mp hi1
  obtain ⟨hml, hme⟩ := List.getElem?_eq_some.mp hm1
  have := (@List.Nodup.getElem_inj_iff _ _ hnd m hml i hil).mp (hme.trans hie.symm)
  exact hne this

/-- The czar after `chooseWinner` with a non-empty prompt deck: with distinct names and
the czar at roster position `i`, the new czar is at position `(i + 1) % n`. -/
theorem chooseWinner_next_czar (g : Game) (player : String) (i : Nat) (pi : Player)
    (hnd : (names g).Nodup) (hget : g.Players[i]? = some pi) (hczar : g.CardCzar = pi.Name)
    (hb : g.Blackdeck ≠ []) :
    ∃ g1 evs, chooseWinner g player = .ok (g1, evs) ∧ names g1 = names g ∧
      g1.Submitted = [] ∧
      (names g)[(i + 1) % g.Players.length]? = some g1.CardCzar ∧
      g1.Question :: g1.Blackdeck = g.Blackdeck := by
  obtain ⟨g1, evs, hr, hsub, _, hn, _, _, hcons⟩ :=
    newRound_total { g with Players := addPoint player g.Players }
  cases hbd : g.Blackdeck with
  | nil => exact absurd hbd hb
  | cons q rest =>
    obtain ⟨hq, hrest, hrot⟩ := hcons q rest hbd
    have hall : g.Players ≠ [] := by
      intro hnil
      rw [hnil] at hget
      simp at hget
    have hfirst : ∀ (m : Nat) (r : Player), m < i → g.Players[m]? = some r →
        r.Name ≠ g.CardCzar := by
      intro m r hm hr1
      rw [hczar]
      exact names_ne_of_nodup g.Players hnd i m pi r hget hr1 (by omega)
    obtain ⟨c, hc, hloop⟩ :=
      rotateLoop_first g.Players g.CardCzar g.Players 0 i pi hall hget hczar.symm hfirst
    have hsame : rotateLoop (addPoint player g.Players) g.CardCzar (addPoint player g.Players) 0 =
        rotateLoop g.Players g.CardCzar g.Players 0 :=
      rotateLoop_congr _ _ _ _ _ 0 (addPoint_names player g.Players)
        (addPoint_names player g.Players)
    have hcz : g1.CardCzar = c.Name := by
      have h1 : rotateLoop g.Players g.CardCzar g.Players 0 = .ok g1.CardCzar := by
        rw [← hsame]; exact hrot
      rw [hloop] at h1
      simp only [Except.ok.injEq] at h1
      exact h1.symm
    refine ⟨g1, evs, hr, ?_, hsub, ?_, ?_⟩
    · simp only [names, hn]
      exact addPoint_names player g.Players
    · simp only [names, List.getElem?_map]
      have : 0 + i + 1 = i + 1 := by omega
      rw [this] at hc
      rw [hc, hcz]
      rfl
    · rw [hq, hrest]

/-- C9 (counterexample): alice is card czar and has no submission, bob has the only
submission; `chooseWinner` called with the name alice gives alice a point. -/
theorem chooseWinner_scores_czar :
    sampleRevealed.CardCzar = "alice" ∧ submitters sampleRevealed = ["bob"] ∧
    (chooseWinner sampleRevealed "alice").map
        (fun r => r.1.Players.map (fun p => (p.Name, p.Score))) =
      .ok [("alice", 1), ("bob", 0)] :=
  ⟨rfl, rfl, rfl⟩

/-- C9 (amended): `chooseWinner` returns for every game and every name; it adds one, in
the 64-bit arithmetic of `Score += 1`, to the score of every roster player carrying the
name it is called with, has a submission or not, and keeps every other score and all
names: a score below the largest `int` becomes that score plus one, the largest `int`
wraps to the smallest.  In the scenario with alice as czar and bob the only submitter,
the call with the name bob makes the score of bob 1 and leaves alice at 0. -/
theorem chooseWinner_scores (g : Game) (player : String) :
    (∃ g1 evs, chooseWinner g player = .ok (g1, evs) ∧
      g1.Players.map (fun p => p.Name) = g.Players.map (fun p => p.Name) ∧
      g1.Players.map (fun p => p.Score) =
        g.Players.map (fun p => if p.Name = player then wrapInt64 (p.Score + 1)
          else p.Score) ∧
      ∀ (i : Nat) (p : Player), g.Players[i]? = some p →
        ∃ q, g1.Players[i]? = some q ∧ q.Name = p.Name ∧
          (p.Name ≠ player → q.Score = p.Score) ∧
          (p.Name = player → minInt64 ≤ p.Score → p.Score < maxInt64 →
            q.Score = p.Score + 1) ∧
          (p.Name = player → p.Score = maxInt64 → q.Score = minInt64)) ∧
    (chooseWinner sampleRevealed "bob").map
        (fun r => r.1.Players.map (fun p => (p.Name, p.Score))) =
      .ok [("alice", 0), ("bob", 1)] := by
  refine ⟨?_, rfl⟩
  obtain ⟨g1, evs, hr, _, _, hn, hs, _, _⟩ :=
    newRound_total { g with Players := addPoint player g.Players }
  have hnames : g1.Players.map (fun p => p.Name) = g.Players.map (fun p => p.Name) := by
    rw [hn]; exact addPoint_names player g.Players
  have hscores : g1.Players.map (fun p => p.Score) =
      g.Players.map (fun p => if p.Name = player then wrapInt64 (p.Score + 1)
        else p.Score) := by
    rw [hs]; exact addPoint_scores player g.Players
  refine ⟨g1, evs, hr, hnames, hscores, ?_⟩
  intro i p hp
  obtain ⟨q, hq, hqn⟩ := map_eq_getElem? _ _ _ _ hnames i p hp
  obtain ⟨q1, hq1, hqs⟩ := map_eq_getElem? _ _ _ _ hscores i p hp
  rw [hq] at hq1
  simp only [Option.some.injEq] at hq1
  subst hq1
  refine ⟨q, hq, hqn, ?_, ?_, ?_⟩
  · intro hne
    simpa [hne] using hqs
  · intro he hlo hhi
    have h1 : q.Score = wrapInt64 (p.Score + 1) := by simpa [he] using hqs
    rw [h1]
    apply wrapInt64_of_range
    · unfold minInt64 at hlo ⊢; omega
    · unfold maxInt64 at hhi ⊢; omega
  · intro he hmax
    have h1 : q.Score = wrapInt64 (p.Score + 1) := by simpa [he] using hqs
    rw [h1, hmax]
    exact wrapInt64_max_succ

/-- C10: rotation of the card czar is positional.  With distinct names, the czar at
roster position `i` and a non-empty prompt deck, `chooseWinner` with any argument leaves
the czar at position `(i + 1) % n`; with roster `[A, B, C]`, czar `A` and three prompts
left, three calls take the czar to `B`, then `C`, then `A`. -/
theorem chooseWinner_rotates_czar :
    (∀ (g : Game) (player : String) (i : Nat) (pi : Player),
      (names g).Nodup → g.Players[i]? = some pi → g.CardCzar = pi.Name → g.Blackdeck ≠ [] →
      ∃ g1 evs, chooseWinner g player = .ok (g1, evs) ∧ names g1 = names g ∧
        (names g1)[(i + 1) % g.Players.length]? = some g1.CardCzar) ∧
    (∀ (g : Game) (A B C x y z : String),
      names g = [A, B, C] → [A, B, C].Nodup → g.CardCzar = A → 3 ≤ g.Blackdeck.length →
      ∃ g1 g2 g3, step g (.choose x) = .ok g1 ∧ g1.CardCzar = B ∧
        step g1 (.choose y) = .ok g2 ∧ g2.CardCzar = C ∧
        step g2 (.choose z) = .ok g3 ∧ g3.CardCzar = A) := by
  constructor
  · intro g player i pi hnd hget hczar hb
    obtain ⟨g1, evs, hr, hn, _, hc, _⟩ := chooseWinner_next_czar g player i pi hnd hget hczar hb
    exact ⟨g1, evs, hr, hn, by rw [hn]; exact hc⟩
  · intro g A B C x y z hn hnd hczar hb
    have hlen : g.Players.length = 3 := by
      have := congrArg List.length hn
      simpa [names] using this
    have key : ∀ (h : Game) (w : String) (i : Nat), names h = [A, B, C] →
        [A, B, C][i]? = some h.CardCzar → h.Blackdeck ≠ [] →
        ∃ h1, step h (.choose w) = .ok h1 ∧ names h1 = [A, B, C] ∧
          [A, B, C][(i + 1) % 3]? = some h1.CardCzar ∧
          h1.Blackdeck.length + 1 = h.Blackdeck.length := by
      intro h w i hnames hcz hbd
      have hl : h.Players.length = 3 := by
        have := congrArg List.length hnames
        simpa [names] using this
      have hcz1 : (h.Players.map (fun p => p.Name))[i]? = some h.CardCzar := by
        have : h.Players.map (fun p => p.Name) = [A, B, C] := hnames
        rw [this]; exact hcz
      rw [List.getElem?_map] at hcz1
      cases hp : h.Players[i]? with
      | none => rw [hp] at hcz1; simp at hcz1
      | some pi =>
        rw [hp] at hcz1
        simp only [Option.map_some', Option.some.injEq] at hcz1
        obtain ⟨h1, evs, hr, hn1, _, hc, hq⟩ :=
          chooseWinner_next_czar h w i pi (by rw [hnames]; exact hnd) hp hcz1.symm hbd
        refine ⟨h1, by simp [step, hr], by rw [hn1]; exact hnames, ?_, ?_⟩
        · rw [hl, hnames] at hc; exact hc
        · have := congrArg List.length hq
          simpa using this
    obtain ⟨g1, hs1, hn1, hc1, hb1⟩ := key g x 0 hn (by simp [hczar])
      (by intro h0; rw [h0] at hb; simp at hb)
    obtain ⟨g2, hs2, hn2, hc2, hb2⟩ := key g1 y 1 hn1 hc1
      (by intro h0; rw [h0] at hb1; simp at hb1; omega)
    obtain ⟨g3, hs3, hn3, hc3, hb3⟩ := key g2 z 2 hn2 hc2
      (by intro h0; rw [h0] at hb2; simp at hb2; omega)
    refine ⟨g1, g2, g3, hs1, ?_, hs2, ?_, hs3, ?_⟩
    · simpa using hc1.symm
    · simpa using hc2.symm
    · simpa using hc3.symm

theorem chooseWinner_rotates_czar_witness :
    ((names sampleTrio).Nodup ∧ sampleTrio.Players[0]? = some ⟨"alice", 3, ["a"]⟩ ∧
      sampleTrio.Blackdeck ≠ [] ∧ 3 ≤ sampleTrio.Blackdeck.length) ∧
    (∃ g1 evs, chooseWinner sampleTrio "carol" = .ok (g1, evs) ∧ names g1 = names sampleTrio ∧
      (names g1)[(0 + 1) % sampleTrio.Players.length]? = some g1.CardCzar) ∧
    (∃ g1 g2 g3, step sampleTrio (.choose "carol") = .ok g1 ∧ g1.CardCzar = "bob" ∧
      step g1 (.choose "carol") = .ok g2 ∧ g2.CardCzar = "carol" ∧
      step g2 (.choose "nobody") = .ok g3 ∧ g3.CardCzar = "alice") :=
  ⟨⟨by decide, rfl, by decide, by decide⟩,
   chooseWinner_rotates_czar.1 sampleTrio "carol" 0 ⟨"alice", 3, ["a"]⟩ (by decide) rfl rfl
     (by decide),
   chooseWinner_rotates_czar.2 sampleTrio "alice" "bob" "carol" "carol" "carol" "nobody" rfl
     (by decide) rfl (by decide)⟩

/-! ## Invariants over sequences of calls -/

/-- A call of `submitCard` that returns an error leaves the game as it was and issues no
event. -/
theorem submitCard_error_unchanged (g g1 : Game) (p : String) (card : Int) (evs : List Event)
    (e : SubmitError) (h : submitCard g p card = .ok (g1, evs, some e)) :
    g1 = g ∧ evs = [] := by
  unfold submitCard at h
  split at h
  · simp only [Except.ok.injEq, Prod.mk.injEq] at h
    exact ⟨h.1.symm, h.2.1.symm⟩
  · split at h
    · simp only [Except.ok.injEq, Prod.mk.injEq] at h
      exact ⟨h.1.symm, h.2.1.symm⟩
    · split at h
      · simp only [Except.ok.injEq, Prod.mk.injEq] at h
        exact ⟨h.1.symm, h.2.1.symm⟩
      · split at h
        · simp only [Except.ok.injEq, Prod.mk.injEq] at h
          exact ⟨h.1.symm, h.2.1.symm⟩
        · split at h
          · simp at h
          · split at h
            · simp at h
            · simp at h

/-- A call of `submitCard` that succeeds was made with two or more players, under a name
of the roster that had not submitted. -/
theorem submitCard_success_pre (g g1 : Game) (p : String) (card : Int) (evs : List Event)
    (h : submitCard g p card = .ok (g1, evs, none)) :
    2 ≤ g.Players.length ∧ p ∈ names g ∧ p ∉ submitters g := by
  have h2 : 2 ≤ g.Players.length := by
    by_contra hc
    rw [(submitCard_checks g p card).1 (by omega)] at h
    simp at h
  have hin : p ∈ names g := by
    by_contra hc
    rw [(submitCard_checks g p card).2.1 h2 hc] at h
    simp at h
  refine ⟨h2, hin, ?_⟩
  intro hc
  rw [(submitCard_checks g p card).2.2.1 h2 hin hc] at h
  simp at h

/-- The effect of a returning `submitCard` on names, submitters and czar. -/
theorem submitCard_frame (g g1 : Game) (p : String) (card : Int) (evs : List Event)
    (r : Option SubmitError) (h : submitCard g p card = .ok (g1, evs, r)) :
    names g1 = names g ∧ g1.CardCzar = g.CardCzar ∧
    (submitters g1 = submitters g ∨
      (submitters g1 = submitters g ++ [p] ∧ p ∈ names g ∧ p ∉ submitters g)) := by
  cases r with
  | some e =>
    obtain ⟨hg, _⟩ := submitCard_error_unchanged g g1 p card evs e h
    subst hg
    exact ⟨rfl, rfl, Or.inl rfl⟩
  | none =>
    obtain ⟨_, hin, hns⟩ := submitCard_success_pre g g1 p card evs h
    obtain ⟨idx, i, pl, c, _, _, _, _, _, hsub, _, _, _, hn, _, _, _, hcz, _, _⟩ :=
      submitCard_ok_effect g g1 p card evs h
    refine ⟨hn, hcz, Or.inr ⟨?_, hin, hns⟩⟩
    simp [submitters, hsub]

/-- The effect of a returning `upsertPlayer` on names, submitters and czar. -/
theorem upsertPlayer_frame (g g1 : Game) (name : String) (p : Player) (evs : List Event)
    (h : upsertPlayer g name = .ok (p, g1, evs)) :
    g1.Submitted = g.Submitted ∧
    ((g1 = g ∧ name ∈ names g) ∨
      (name ∉ names g ∧ names g1 = names g ++ [name] ∧
        g1.CardCzar = if g.Players = [] then name else g.CardCzar)) := by
  by_cases hin : name ∈ names g
  · obtain ⟨_, q, _, _, _, hq⟩ := upsertPlayer_known g name hin
    rw [hq] at h
    simp only [Except.ok.injEq, Prod.mk.injEq] at h
    obtain ⟨_, hg, _⟩ := h
    subst hg
    exact ⟨rfl, Or.inl ⟨rfl, hin⟩⟩
  · have hlen : InitialHand ≤ g.Whitedeck.length := by
      by_contra hc
      rw [upsertPlayer_short_deck g name hin (by omega)] at h
      cases h
    obtain ⟨evs1, hq⟩ := upsertPlayer_new g name hin hlen
    rw [hq] at h
    simp only [Except.ok.injEq, Prod.mk.injEq] at h
    obtain ⟨_, hg, _⟩ := h
    subst hg
    exact ⟨rfl, Or.inr ⟨hin, by simp [names], rfl⟩⟩

/-- The effect of `chooseWinner` on names, submissions and czar. -/
theorem chooseWinner_frame (g g1 : Game) (player : String) (evs : List Event)
    (h : chooseWinner g player = .ok (g1, evs)) :
    names g1 = names g ∧ g1.Submitted = [] ∧
    (g1.CardCzar = g.CardCzar ∨ g1.CardCzar ∈ names g) ∧
    (g.CardCzar ∈ names g → g1.CardCzar ∈ names g) := by
  obtain ⟨g2, evs2, hr, hsub, _, hn, _, hnil, hcons⟩ :=
    newRound_total { g with Players := addPoint player g.Players }
  have hg : g1 = g2 := by
    unfold chooseWinner at h
    rw [hr] at h
    simp only [Except.ok.injEq, Prod.mk.injEq] at h
    exact h.1.symm
  subst hg
  have hnames : names g1 = names g := by
    simp only [names, hn]
    exact addPoint_names player g.Players
  refine ⟨hnames, hsub, ?_⟩
  cases hb : g.Blackdeck with
  | nil =>
    obtain ⟨hg1, _⟩ := hnil hb
    have hc : g1.CardCzar = g.CardCzar := by rw [hg1]
    exact ⟨Or.inl hc, fun hin => by rw [hc]; exact hin⟩
  | cons q rest =>
    obtain ⟨_, _, hrot⟩ := hcons q rest hb
    obtain ⟨c, hc, hor, himp⟩ := rotateLoop_total (addPoint player g.Players) g.CardCzar
    have hcc : g1.CardCzar = c := by
      have : rotateLoop (addPoint player g.Players) g.CardCzar (addPoint player g.Players) 0 =
          .ok g1.CardCzar := hrot
      rw [hc] at this
      simp only [Except.ok.injEq] at this
      exact this.symm
    rw [addPoint_names] at hor himp
    constructor
    · rcases hor with h1 | h1
      · exact Or.inl (hcc.trans h1)
      · exact Or.inr (by rw [hcc]; exact h1)
    · intro hin
      rw [hcc]
      apply himp
      simp only [names, List.mem_map] at hin
      obtain ⟨q1, hq1, hq1n⟩ := hin
      have : q1.Name ∈ (addPoint player g.Players).map (fun p => p.Name) := by
        rw [addPoint_names]; exact List.mem_map.mpr ⟨q1, hq1, rfl⟩
      obtain ⟨q2, hq2, hq2n⟩ := List.mem_map.mp this
      exact ⟨q2, hq2, hq2n.trans hq1n⟩

theorem roundInv_step (g g1 : Game) (a : Action) (hinv : RoundInv g)
    (habs : czarAbstains g a) (hs : step g a = .ok g1) : RoundInv g1 := by
  obtain ⟨hnd, hsnd, hsub, hcz, hin⟩ := hinv
  have hplayers : ∀ h : Game, h.Players = [] ↔ names h = [] := by
    intro h; simp [names]
  cases a with
  | join p =>
    simp only [step] at hs
    cases hu : upsertPlayer g p with
    | error f => rw [hu] at hs; simp at hs
    | ok r =>
      obtain ⟨pl, g2, evs⟩ := r
      rw [hu] at hs
      simp only [Except.ok.injEq] at hs
      subst hs
      obtain ⟨hsame, hcase⟩ := upsertPlayer_frame g g2 p pl evs hu
      have hsm : submitters g2 = submitters g := by simp [submitters, hsame]
      rcases hcase with ⟨hg, _⟩ | ⟨hnew, hnames, hczar⟩
      · subst hg; exact ⟨hnd, hsnd, hsub, hcz, hin⟩
      · refine ⟨?_, ?_, ?_, ?_, ?_⟩
        · rw [hnames]
          exact List.Nodup.append hnd (List.nodup_singleton p) (by simpa using hnew)
        · rw [hsm]; exact hsnd
        · intro s hsmem
          rw [hsm] at hsmem
          rw [hnames]
          exact List.mem_append_left _ (hsub s hsmem)
        · rw [hsm, hczar]
          by_cases hp : g.Players = []
          · rw [if_pos hp]
            intro hmem
            have := hsub p hmem
            rw [(hplayers g).mp hp] at this
            simp at this
          · rw [if_neg hp]; exact hcz
        · intro _
          rw [hnames, hczar]
          by_cases hp : g.Players = []
          · rw [if_pos hp]; simp
          · rw [if_neg hp]; exact List.mem_append_left _ (hin hp)
  | submit p c =>
    simp only [step] at hs
    cases hu : submitCard g p c with
    | error f => rw [hu] at hs; simp at hs
    | ok r =>
      obtain ⟨g2, evs, e⟩ := r
      rw [hu] at hs
      simp only [Except.ok.injEq] at hs
      subst hs
      obtain ⟨hnames, hczar, hcase⟩ := submitCard_frame g g2 p c evs e hu
      have hpl : g2.Players ≠ [] → g.Players ≠ [] := by
        intro h1 h2
        apply h1
        rw [hplayers, hnames, ← hplayers]
        exact h2
      rcases hcase with hsm | ⟨hsm, hpin, hpns⟩
      · refine ⟨by rw [hnames]; exact hnd, by rw [hsm]; exact hsnd, ?_, ?_, ?_⟩
        · intro s hsmem; rw [hsm] at hsmem; rw [hnames]; exact hsub s hsmem
        · rw [hsm, hczar]; exact hcz
        · intro h1; rw [hnames, hczar]; exact hin (hpl h1)
      · have hne : p ≠ g.CardCzar := habs
        refine ⟨by rw [hnames]; exact hnd, ?_, ?_, ?_, ?_⟩
        · rw [hsm]
          exact List.Nodup.append hsnd (List.nodup_singleton p) (by simpa using hpns)
        · intro s hsmem
          rw [hsm] at hsmem
          rw [hnames]
          rcases List.mem_append.mp hsmem with h1 | h1
          · exact hsub s h1
          · simp only [List.mem_singleton] at h1
            rw [h1]; exact hpin
        · rw [hsm, hczar]
          intro hmem
          rcases List.mem_append.mp hmem with h1 | h1
          · exact hcz h1
          · simp only [List.mem_singleton] at h1
            exact hne h1.symm
        · intro h1; rw [hnames, hczar]; exact hin (hpl h1)
  | choose p =>
    simp only [step] at hs
    cases hu : chooseWinner g p with
    | error f => rw [hu] at hs; simp at hs
    | ok r =>
      obtain ⟨g2, evs⟩ := r
      rw [hu] at hs
      simp only [Except.ok.injEq] at hs
      subst hs
      obtain ⟨hnames, hsubm, _, hczin⟩ := chooseWinner_frame g g2 p evs hu
      have hsm : submitters g2 = [] := by simp [submitters, hsubm]
      refine ⟨by rw [hnames]; exact hnd, by rw [hsm]; exact List.nodup_nil, ?_, ?_, ?_⟩
      · intro s hsmem; rw [hsm] at hsmem; simp at hsmem
      · rw [hsm]; simp
      · intro h1
        rw [hnames]
        apply hczin
        apply hin
        intro h2
        apply h1
        rw [hplayers, hnames, ← hplayers]
        exact h2

theorem roundInv_bound (g : Game) (hinv : RoundInv g) (hne : g.Players ≠ []) :
    g.Submitted.length + 1 ≤ g.Players.length := by
  obtain ⟨hnd, hsnd, hsub, hcz, hin⟩ := hinv
  have hczin := hin hne
  have hss : submitters g ⊆ (names g).erase g.CardCzar := by
    intro s hs
    rw [List.Nodup.mem_erase_iff hnd]
    refine ⟨?_, hsub s hs⟩
    intro heq
    rw [heq] at hs
    exact hcz hs
  have hle := (List.Nodup.subperm hsnd hss).length_le
  rw [List.length_erase_of_mem hczin] at hle
  have hpos : 0 < (names g).length := List.length_pos_of_mem hczin
  simp only [submitters, names, List.length_map] at hle hpos
  omega

theorem newGame_fresh (blackDeck whiteDeck : List String) (permB permW : List Nat)
    (name : String) (g0 : Game) (h : newGame blackDeck whiteDeck permB permW name = .ok g0) :
    g0.Players = [] ∧ g0.Submitted = [] ∧ g0.CardCzar = "" ∧ g0.Name = name := by
  unfold newGame at h
  split at h
  · simp at h
  · split at h
    · simp at h
    · split at h
      · simp at h
      · simp only [Except.ok.injEq] at h
        subst h
        exact ⟨rfl, rfl, rfl, rfl⟩

theorem reachable_run (g0 g g1 : Game) (as : List Action) (hr : Reachable g0 g)
    (h : run g as = .ok g1) : Reachable g0 g1 := by
  induction as generalizing g with
  | nil =>
    simp only [run, Except.ok.injEq] at h
    subst h
    exact hr
  | cons a as ih =>
    rw [run] at h
    cases hs : step g a with
    | error f => rw [hs] at h; simp at h
    | ok g2 =>
      rw [hs] at h
      exact ih g2 (Reachable.next g g2 a hr hs) h

/-- C1 (counterexample): from the fresh sample game, alice and bob join, then the card
czar alice and bob each submit a card; every call returns, the czar is among the
submitters and there are two submissions for two players. -/
theorem czar_submission_breaks_bound :
    newGame sampleBlack sampleWhite [0, 1, 2] (List.range 16) "g1" = .ok sampleFresh ∧
    run sampleFresh [.join "alice", .join "bob", .submit "alice" 0, .submit "bob" 0] =
      .ok sampleOverfull ∧
    Reachable sampleFresh sampleOverfull ∧
    sampleOverfull.CardCzar ∈ submitters sampleOverfull ∧
    ¬ ((sampleOverfull.Submitted.length : Int) ≤ (sampleOverfull.Players.length : Int) - 1) :=
  ⟨rfl, rfl,
   reachable_run sampleFresh sampleFresh sampleOverfull
     [.join "alice", .join "bob", .submit "alice" 0, .submit "bob" 0] Reachable.init rfl,
   by decide, by decide⟩

/-- C1 (amended): in every game reached from a fresh game by join, submit and
choose-winner calls, none of them a submit under the name of the card czar of the
moment, the card czar is not among the submitters, a game with a player has at most
`len(players) - 1` submissions, and a game without a player has none. -/
theorem submissions_bound_czar_abstaining (blackDeck whiteDeck : List String)
    (permB permW : List Nat) (name : String) (g0 g : Game)
    (h0 : newGame blackDeck whiteDeck permB permW name = .ok g0)
    (hr : ReachableCzarAbstaining g0 g) :
    (g.Players ≠ [] → (g.Submitted.length : Int) ≤ (g.Players.length : Int) - 1) ∧
    (g.Players = [] → g.Submitted = []) ∧
    g.CardCzar ∉ submitters g := by
  obtain ⟨hp0, hs0, _, _⟩ := newGame_fresh blackDeck whiteDeck permB permW name g0 h0
  have hinv : RoundInv g := by
    induction hr with
    | init =>
      refine ⟨?_, ?_, ?_, ?_, ?_⟩
      · simp [names, hp0]
      · simp [submitters, hs0]
      · simp [submitters, hs0]
      · simp [submitters, hs0]
      · intro h; exact absurd hp0 h
    | next g g1 a _ habs hs ih => exact roundInv_step g g1 a ih habs hs
  refine ⟨?_, ?_, hinv.2.2.2.1⟩
  · intro hne
    have := roundInv_bound g hinv hne
    omega
  · intro hnil
    have hsub := hinv.2.2.1
    cases hsm : g.Submitted with
    | nil => rfl
    | cons s ss =>
      have := hsub s.Player (by simp [submitters, hsm])
      simp [names, hnil] at this

theorem submissions_bound_czar_abstaining_witness :
    (newGame sampleBlack sampleWhite [0, 1, 2] (List.range 16) "g1" = .ok sampleFresh ∧
      ReachableCzarAbstaining sampleFresh sampleRevealed) ∧
    (sampleRevealed.Players ≠ [] →
      (sampleRevealed.Submitted.length : Int) ≤ (sampleRevealed.Players.length : Int) - 1) ∧
    (sampleRevealed.Players = [] → sampleRevealed.Submitted = []) ∧
    sampleRevealed.CardCzar ∉ submitters sampleRevealed :=
  have hreach : ReachableCzarAbstaining sampleFresh sampleRevealed :=
    .next sampleRound sampleRevealed (.submit "bob" 0)
      (.next sampleAlice sampleRound (.join "bob")
        (.next sampleFresh sampleAlice (.join "alice") .init trivial rfl) trivial rfl)
      (by decide) rfl
  ⟨⟨rfl, hreach⟩,
    submissions_bound_czar_abstaining sampleBlack sampleWhite [0, 1, 2] (List.range 16) "g1"
      sampleFresh sampleRevealed rfl hreach⟩

/-- C4: once `submitCard` has succeeded for a player, every later `submitCard` under that
name, with any index, issued after any joins and submits but before the next
`chooseWinner`, returns the duplicate-submission error, leaves the game as it is and
issues no event. -/
theorem submitCard_twice_rejected (g g1 g2 : Game) (p : String) (i j : Int)
    (evs : List Event) (h : submitCard g p i = .ok (g1, evs, none))
    (hr : SameRound g1 g2) :
    submitCard g2 p j = .ok (g2, [], some (.duplicateSubmission p)) := by
  obtain ⟨h2, hin, _⟩ := submitCard_success_pre g g1 p i evs h
  obtain ⟨hn1, _, hcase⟩ := submitCard_frame g g1 p i evs none h
  have hsub1 : p ∈ submitters g1 := by
    obtain ⟨_, _, _, c, _, _, _, _, _, hs, _⟩ := submitCard_ok_effect g g1 p i evs h
    simp [submitters, hs]
  have hlen1 : 2 ≤ g1.Players.length := by
    have := congrArg List.length hn1
    simp only [names, List.length_map] at this
    omega
  have hkeep : 2 ≤ g2.Players.length ∧ p ∈ names g2 ∧ p ∈ submitters g2 := by
    induction hr with
    | init => exact ⟨hlen1, by rw [hn1]; exact hin, hsub1⟩
    | join g3 g4 q _ hs ih =>
      obtain ⟨hl, hnm, hsb⟩ := ih
      simp only [step] at hs
      cases hu : upsertPlayer g3 q with
      | error f => rw [hu] at hs; simp at hs
      | ok r =>
        obtain ⟨pl, g5, evs5⟩ := r
        rw [hu] at hs
        simp only [Except.ok.injEq] at hs
        subst hs
        obtain ⟨hsame, hc⟩ := upsertPlayer_frame g3 g5 q pl evs5 hu
        have hsm : submitters g5 = submitters g3 := by simp [submitters, hsame]
        rcases hc with ⟨hg, _⟩ | ⟨_, hnames, _⟩
        · subst hg; exact ⟨hl, hnm, hsb⟩
        · refine ⟨?_, by rw [hnames]; exact List.mem_append_left _ hnm, by rw [hsm]; exact hsb⟩
          have := congrArg List.length hnames
          simp only [names, List.length_map, List.length_append, List.length_singleton] at this
          omega
    | submit g3 g4 q c _ hs ih =>
      obtain ⟨hl, hnm, hsb⟩ := ih
      simp only [step] at hs
      cases hu : submitCard g3 q c with
      | error f => rw [hu] at hs; simp at hs
      | ok r =>
        obtain ⟨g5, evs5, e⟩ := r
        rw [hu] at hs
        simp only [Except.ok.injEq] at hs
        subst hs
        obtain ⟨hnames, _, hc⟩ := submitCard_frame g3 g5 q c evs5 e hu
        refine ⟨?_, by rw [hnames]; exact hnm, ?_⟩
        · have := congrArg List.length hnames
          simp only [names, List.length_map] at this
          omega
        · rcases hc with hsm | ⟨hsm, _, _⟩
          · rw [hsm]; exact hsb
          · rw [hsm]; exact List.mem_append_left _ hsb
  exact (submitCard_checks g2 p j).2.2.1 hkeep.1 hkeep.2.1 hkeep.2.2

theorem submitCard_twice_rejected_witness :
    (submitCard sampleRound "bob" 0 =
        .ok (sampleRevealed, revealRound sampleRevealed, none) ∧
      SameRound sampleRevealed sampleCzarAlso) ∧
    submitCard sampleCzarAlso "bob" 3 =
      .ok (sampleCzarAlso, [], some (.duplicateSubmission "bob")) :=
  have hround : SameRound sampleRevealed sampleCzarAlso :=
    .submit sampleRevealed sampleCzarAlso "alice" 0 .init rfl
  ⟨⟨rfl, hround⟩,
    submitCard_twice_rejected sampleRound sampleRevealed sampleCzarAlso "bob" 0 3
      (revealRound sampleRevealed) rfl hround⟩

/-! ## The checks, the effect of a submit and the join, as claimed -/

/-- C3: `submitCard` checks round-not-started, unknown-player, duplicate-submission and
invalid-card in this order and returns the first that fails, leaving the game as it was:
with fewer than two players the round-not-started error for every name and index,
otherwise with a name outside the roster the unknown-player error for every index,
otherwise with a player among the submitters the duplicate-submission error for every
index, otherwise with an index at or beyond the length of the hand the invalid-card
error. -/
theorem submitCard_check_order (g : Game) (p : String) (card : Int) :
    (g.Players.length < 2 → submitCard g p card = .ok (g, [], some .roundNotStarted)) ∧
    (2 ≤ g.Players.length → p ∉ names g →
      submitCard g p card = .ok (g, [], some (.unknownPlayer p g.Name))) ∧
    (2 ≤ g.Players.length → p ∈ names g → p ∈ submitters g →
      submitCard g p card = .ok (g, [], some (.duplicateSubmission p))) ∧
    (2 ≤ g.Players.length → p ∈ names g → p ∉ submitters g →
      ∀ (idx : Nat) (pl : Player), g.Players[idx]? = some pl → pl.Name = p →
        (∀ (m : Nat) (q : Player), idx < m → g.Players[m]? = some q → q.Name ≠ p) →
        (pl.Cards.length : Int) ≤ card →
        submitCard g p card = .ok (g, [], some (.invalidCard card))) :=
  submitCard_checks g p card

theorem submitCard_check_order_witness :
    submitCard sampleLonely "alice" 0 = .ok (sampleLonely, [], some .roundNotStarted) ∧
    submitCard sampleRound "carol" (-3) =
      .ok (sampleRound, [], some (.unknownPlayer "carol" "g1")) ∧
    submitCard sampleRevealed "bob" (-3) =
      .ok (sampleRevealed, [], some (.duplicateSubmission "bob")) ∧
    submitCard sampleRound "bob" 7 = .ok (sampleRound, [], some (.invalidCard 7)) :=
  ⟨(submitCard_check_order sampleLonely "alice" 0).1 (by decide),
   (submitCard_check_order sampleRound "carol" (-3)).2.1 (by decide) (by decide),
   (submitCard_check_order sampleRevealed "bob" (-3)).2.2.1 (by decide) (by decide) (by decide),
   (submitCard_check_order sampleRound "bob" 7).2.2.2 (by decide) (by decide) (by decide)
     1 ⟨"bob", 0, ["w7", "w8", "w9", "w10", "w11", "w12", "w13"]⟩ (by decide) (by decide)
     (by
       intro m q hm hq
       have hlen : m < sampleRound.Players.length := by
         rcases List.getElem?_eq_some.mp hq with ⟨hh, _⟩
         exact hh
       simp [sampleRound] at hlen
       omega)
     (by decide)⟩

/-- C5: a successful `submitCard` appends the submission of the card at the given
position to the end of the submissions, removes exactly that position from the hand of
the player (the last roster entry with that name) keeping the order of the other cards,
and changes nothing else: every other roster entry, all names and scores, the roster
order, both decks, the prompt and the czar. -/
theorem submitCard_success_effect (g g1 : Game) (p : String) (card : Int) (evs : List Event)
    (h : submitCard g p card = .ok (g1, evs, none)) :
    ∃ (idx i : Nat) (pl : Player) (c : String),
      card = (i : Int) ∧ g.Players[idx]? = some pl ∧ pl.Name = p ∧
      (∀ m q, idx < m → g.Players[m]? = some q → q.Name ≠ p) ∧
      pl.Cards[i]? = some c ∧
      g1.Submitted = g.Submitted ++ [⟨p, c⟩] ∧
      g1.Players[idx]? =
        some { Name := pl.Name, Score := pl.Score, Cards := pl.Cards.eraseIdx i } ∧
      (∀ m, m ≠ idx → g1.Players[m]? = g.Players[m]?) ∧
      g1.Players.length = g.Players.length ∧
      g1.Players.map (fun q => q.Name) = g.Players.map (fun q => q.Name) ∧
      g1.Players.map (fun q => q.Score) = g.Players.map (fun q => q.Score) ∧
      g1.Name = g.Name ∧ g1.Question = g.Question ∧ g1.CardCzar = g.CardCzar ∧
      g1.Blackdeck = g.Blackdeck ∧ g1.Whitedeck = g.Whitedeck :=
  submitCard_ok_effect g g1 p card evs h

theorem submitCard_success_effect_witness :
    submitCard sampleDuplicates "bob" 1 =
      .ok (sampleDuplicatesAfter,
           [Event.publish "g2_alice" "hand" (Payload.czarhand sampleDuplicatesAfter)], none) ∧
    ∃ (idx i : Nat) (pl : Player) (c : String),
      (1 : Int) = (i : Int) ∧ sampleDuplicates.Players[idx]? = some pl ∧ pl.Name = "bob" ∧
      (∀ m q, idx < m → sampleDuplicates.Players[m]? = some q → q.Name ≠ "bob") ∧
      pl.Cards[i]? = some c ∧
      sampleDuplicatesAfter.Submitted = sampleDuplicates.Submitted ++ [⟨"bob", c⟩] ∧
      sampleDuplicatesAfter.Players[idx]? =
        some { Name := pl.Name, Score := pl.Score, Cards := pl.Cards.eraseIdx i } :=
  ⟨rfl,
   by
     obtain ⟨idx, i, pl, c, h1, h2, h3, h4, h5, h6, h7, _⟩ :=
       submitCard_success_effect sampleDuplicates sampleDuplicatesAfter "bob" 1
         [Event.publish "g2_alice" "hand" (Payload.czarhand sampleDuplicatesAfter)] rfl
     exact ⟨idx, i, pl, c, h1, h2, h3, h4, h5, h6, h7⟩⟩

/-- C6: joining under a name of the roster is idempotent: `upsertPlayer` returns the
first roster entry with that name (its name, score and hand), leaves the whole game
exactly as it was, so that no card is drawn, and issues no event. -/
theorem upsertPlayer_existing_idempotent (g : Game) (name : String) (h : name ∈ names g) :
    ∃ (idx : Nat) (p : Player), g.Players[idx]? = some p ∧ p.Name = name ∧
      (∀ (m : Nat) (q : Player), m < idx → g.Players[m]? = some q → q.Name ≠ name) ∧
      upsertPlayer g name = .ok (p, g, []) :=
  upsertPlayer_known g name h

theorem upsertPlayer_existing_idempotent_witness :
    "bob" ∈ names sampleRevealed ∧
    ∃ (idx : Nat) (p : Player), sampleRevealed.Players[idx]? = some p ∧ p.Name = "bob" ∧
      (∀ (m : Nat) (q : Player), m < idx → sampleRevealed.Players[m]? = some q →
        q.Name ≠ "bob") ∧
      upsertPlayer sampleRevealed "bob" = .ok (p, sampleRevealed, []) :=
  ⟨by decide, upsertPlayer_existing_idempotent sampleRevealed "bob" (by decide)⟩

/-! ## Out-of-range inputs: card index, short response deck -/

/-- C2 (code at the failing inputs): for a game with two or more players and a roster
player that has not submitted, a card index at or beyond the length of the hand gets the
invalid-card error with the game unchanged, but a negative card index makes `submitCard`
panic with an index out of range instead of returning that error. -/
theorem submitCard_index_out_of_bounds (g : Game) (p : String) (card : Int) (idx : Nat)
    (pl : Player) (h2 : 2 ≤ g.Players.length) (hget : g.Players[idx]? = some pl)
    (hname : pl.Name = p)
    (hlast : ∀ (m : Nat) (q : Player), idx < m → g.Players[m]? = some q → q.Name ≠ p)
    (hns : p ∉ submitters g) :
    ((pl.Cards.length : Int) ≤ card →
      submitCard g p card = .ok (g, [], some (.invalidCard card))) ∧
    (card < 0 → submitCard g p card = .error .indexOutOfRange) := by
  have hin : p ∈ names g := by
    simp only [names, List.mem_map]
    exact ⟨pl, List.getElem?_mem hget, hname⟩
  constructor
  · intro hcard
    exact (submitCard_checks g p card).2.2.2 h2 hin hns idx pl hget hname hlast hcard
  · intro hneg
    exact submitCard_negative_index g p card h2 hin hns hneg

theorem submitCard_index_out_of_bounds_witness :
    (2 ≤ sampleRound.Players.length ∧
      sampleRound.Players[1]? = some ⟨"bob", 0, ["w7", "w8", "w9", "w10", "w11", "w12", "w13"]⟩ ∧
      "bob" ∉ submitters sampleRound) ∧
    submitCard sampleRound "bob" 7 = .ok (sampleRound, [], some (.invalidCard 7)) ∧
    submitCard sampleRound "bob" (-1) = .error .indexOutOfRange :=
  have hlast : ∀ (m : Nat) (q : Player), 1 < m → sampleRound.Players[m]? = some q →
      q.Name ≠ "bob" := by
    intro m q hm hq
    have hlen : m < sampleRound.Players.length := by
      rcases List.getElem?_eq_some.mp hq with ⟨hh, _⟩
      exact hh
    simp [sampleRound] at hlen
    omega
  ⟨⟨by decide, rfl, by decide⟩,
   (submitCard_index_out_of_bounds sampleRound "bob" 7 1 _ (by decide) rfl rfl hlast
     (by decide)).1 (by decide),
   (submitCard_index_out_of_bounds sampleRound "bob" (-1) 1 _ (by decide) rfl rfl hlast
     (by decide)).2 (by decide)⟩

/-- C7 (code at the failing inputs): joining under a name that is not in the roster.
With fewer than `InitialHand` cards in the response deck `upsertPlayer` panics with a
slice bound out of range, it does not deal a short hand.  With `InitialHand` cards or
more it appends a player with score 0 and the first seven cards of the deck in deck
order, leaves the other cards in the deck and changes no existing player. -/
theorem upsertPlayer_new_player_draw (g : Game) (name : String) (hnew : name ∉ names g) :
    (g.Whitedeck.length < InitialHand →
      upsertPlayer g name = .error .sliceBoundsOutOfRange) ∧
    (InitialHand ≤ g.Whitedeck.length →
      ∃ evs, upsertPlayer g name =
        .ok (⟨name, 0, g.Whitedeck.take InitialHand⟩,
             { g with Players := g.Players ++ [⟨name, 0, g.Whitedeck.take InitialHand⟩],
                      Whitedeck := g.Whitedeck.drop InitialHand,
                      CardCzar := if g.Players = [] then name else g.CardCzar }, evs)) :=
  ⟨fun hshort => upsertPlayer_short_deck g name hnew hshort,
   fun hdeck => upsertPlayer_new g name hnew hdeck⟩

theorem upsertPlayer_new_player_draw_witness :
    ("bob" ∉ names sampleLonely ∧ sampleLonely.Whitedeck.length < InitialHand ∧
      "bob" ∉ names sampleAlice ∧ InitialHand ≤ sampleAlice.Whitedeck.length) ∧
    upsertPlayer sampleLonely "bob" = .error .sliceBoundsOutOfRange ∧
    ∃ evs, upsertPlayer sampleAlice "bob" =
      .ok (⟨"bob", 0, ["w7", "w8", "w9", "w10", "w11", "w12", "w13"]⟩, sampleRound, evs) :=
  ⟨⟨by decide, by decide, by decide, by decide⟩,
   (upsertPlayer_new_player_draw sampleLonely "bob" (by decide)).1 (by decide),
   (upsertPlayer_new_player_draw sampleAlice "bob" (by decide)).2 (by decide)⟩

/-- C8 (code at the failing inputs): the first `enterGame` on a game name that is not in
the registry, with a non-empty source prompt deck.  When the source response deck holds
fewer than `InitialHand` cards the call panics in `upsertPlayer` and the player does not
become card czar.  With `InitialHand` response cards or more the game is registered, the
player is the card czar and the only player, the prompt followed by the working prompt
deck is the shuffled prompt deck, which leaves `len(prompts) - 1` cards; and a join into
a game that has a player changes neither the card czar nor the prompt. -/
theorem enterGame_first_player (games : Registry) (blackDeck whiteDeck : List String)
    (permB permW : List Nat) (gameName p : String)
    (hnew : games gameName = none) (hb : blackDeck ≠ [])
    (hpB : IsPermOf permB blackDeck.length) (hpW : IsPermOf permW whiteDeck.length) :
    (whiteDeck.length < InitialHand →
      enterGame games blackDeck whiteDeck permB permW gameName p =
        .error .sliceBoundsOutOfRange) ∧
    (InitialHand ≤ whiteDeck.length →
      ∃ view reg evs,
        enterGame games blackDeck whiteDeck permB permW gameName p = .ok (view, reg, evs) ∧
        reg gameName = some view.Game ∧
        view.Game.CardCzar = p ∧ names view.Game = [p] ∧
        view.Game.Question :: view.Game.Blackdeck =
          permB.map (fun j => blackDeck.getD j "") ∧
        view.Game.Blackdeck.length = blackDeck.length - 1) ∧
    (∀ (g g1 : Game) (name : String) (pl : Player) (evs : List Event),
      g.Players ≠ [] → upsertPlayer g name = .ok (pl, g1, evs) →
      g1.CardCzar = g.CardCzar ∧ g1.Question = g.Question ∧ g1.Blackdeck = g.Blackdeck) :=
  ⟨fun hshort =>
     enterGame_short_deck games blackDeck whiteDeck permB permW gameName p hnew hb hpB hpW
       hshort,
   fun hdeck =>
     enterGame_first_join games blackDeck whiteDeck permB permW gameName p hnew hb hpB hpW
       hdeck,
   fun g g1 name pl evs hne h => upsertPlayer_keeps_round g g1 name pl evs hne h⟩

theorem enterGame_first_player_witness :
    ((fun _ => none : Registry) "g1" = none ∧ sampleBlack ≠ [] ∧
      IsPermOf [0, 1, 2] sampleBlack.length ∧ IsPermOf [2, 0, 1] ["c", "d", "e"].length ∧
      ["c", "d", "e"].length < InitialHand ∧
      IsPermOf (List.range 16) sampleWhite.length ∧ InitialHand ≤ sampleWhite.length) ∧
    enterGame (fun _ => none) sampleBlack ["c", "d", "e"] [0, 1, 2] [2, 0, 1] "g1" "alice" =
      .error .sliceBoundsOutOfRange ∧
    (∃ view reg evs,
      enterGame (fun _ => none) sampleBlack sampleWhite [0, 1, 2] (List.range 16) "g1"
        "alice" = .ok (view, reg, evs) ∧
      reg "g1" = some view.Game ∧
      view.Game.CardCzar = "alice" ∧ names view.Game = ["alice"] ∧
      view.Game.Question :: view.Game.Blackdeck =
        [0, 1, 2].map (fun j => sampleBlack.getD j "") ∧
      view.Game.Blackdeck.length = sampleBlack.length - 1) :=
  ⟨⟨rfl, by decide, by decide, by decide, by decide, by decide, by decide⟩,
   (enterGame_first_player (fun _ => none) sampleBlack ["c", "d", "e"] [0, 1, 2] [2, 0, 1]
     "g1" "alice" rfl (by decide) (by decide) (by decide)).1 (by decide),
   (enterGame_first_player (fun _ => none) sampleBlack sampleWhite [0, 1, 2] (List.range 16)
     "g1" "alice" rfl (by decide) (by decide) (by decide)).2.1 (by decide)⟩

/-! ## The dealing loop and the round advance in detail -/

/-- The dealing loop, player by player: it returns whenever the deck has a card for
every short hand, the deck loses as many cards from its head as there are short hands,
a full hand is kept and a short hand gets the next card of the deck at its end. -/
theorem dealLoop_spec (ps : List Player) (deck : List String)
    (h : shortHanded ps ≤ deck.length) :
    ∃ ps1, dealLoop ps deck = .ok (ps1, deck.drop (shortHanded ps)) ∧
      ps1.length = ps.length ∧
      ∀ (i : Nat) (p : Player), ps[i]? = some p →
        (InitialHand ≤ p.Cards.length → ps1[i]? = some p) ∧
        (p.Cards.length < InitialHand →
          ∃ c, deck[shortHanded (ps.take i)]? = some c ∧
            ps1[i]? = some { p with Cards := p.Cards ++ [c] }) := by
  induction ps generalizing deck with
  | nil => exact ⟨[], by simp [dealLoop, shortHanded], rfl, by intro i p hp; simp at hp⟩
  | cons x xs ih =>
    by_cases hfull : InitialHand ≤ x.Cards.length
    · have hx : ¬ x.Cards.length < InitialHand := by omega
      have hcount : shortHanded (x :: xs) = shortHanded xs := by
        simp [shortHanded, hx]
      rw [hcount] at h ⊢
      obtain ⟨ps1, hd, hl, hget⟩ := ih deck h
      refine ⟨x :: ps1, by simp [dealLoop, hfull, hd], by simp [hl], ?_⟩
      intro i p hp
      cases i with
      | zero =>
        simp only [List.getElem?_cons_zero, Option.some.injEq] at hp
        subst hp
        exact ⟨fun _ => by simp, fun hlt => absurd hlt hx⟩
      | succ i =>
        simp only [List.getElem?_cons_succ] at hp
        obtain ⟨h1, h2⟩ := hget i p hp
        refine ⟨fun hf => by simpa using h1 hf, fun hlt => ?_⟩
        obtain ⟨c, hc, hq⟩ := h2 hlt
        refine ⟨c, ?_, by simpa using hq⟩
        have : shortHanded ((x :: xs).take (i + 1)) = shortHanded (xs.take i) := by
          simp [shortHanded, hx]
        rw [this]; exact hc
    · have hx : x.Cards.length < InitialHand := by omega
      have hcount : shortHanded (x :: xs) = shortHanded xs + 1 := by
        simp [shortHanded, hx]
      rw [hcount] at h ⊢
      cases deck with
      | nil => simp at h
      | cons c rest =>
        simp only [List.length_cons] at h
        obtain ⟨ps1, hd, hl, hget⟩ := ih rest (by omega)
        refine ⟨{ x with Cards := x.Cards ++ [c] } :: ps1, by simp [dealLoop, hfull, hd],
          by simp [hl], ?_⟩
        intro i p hp
        cases i with
        | zero =>
          simp only [List.getElem?_cons_zero, Option.some.injEq] at hp
          subst hp
          refine ⟨fun hf => absurd hf hfull, fun _ => ⟨c, ?_, by simp⟩⟩
          simp [shortHanded]
        | succ i =>
          simp only [List.getElem?_cons_succ] at hp
          obtain ⟨h1, h2⟩ := hget i p hp
          refine ⟨fun hf => by simpa using h1 hf, fun hlt => ?_⟩
          obtain ⟨c1, hc1, hq⟩ := h2 hlt
          refine ⟨c1, ?_, by simpa using hq⟩
          have : shortHanded ((x :: xs).take (i + 1)) = shortHanded (xs.take i) + 1 := by
            simp [shortHanded, hx]
          rw [this]
          simpa using hc1

theorem shortHanded_le_length (ps : List Player) : shortHanded ps ≤ ps.length := by
  unfold shortHanded
  exact List.countP_le_length _

theorem shortHanded_addPoint (player : String) (ps : List Player) :
    shortHanded (addPoint player ps) = shortHanded ps := by
  induction ps with
  | nil => rfl
  | cons p ps ih =>
    simp only [shortHanded, addPoint, List.map_cons] at ih ⊢
    by_cases hp : p.Name = player <;>
      by_cases hs : p.Cards.length < InitialHand <;> simp [hp, hs, ih]

theorem addPoint_take (player : String) (ps : List Player) (i : Nat) :
    (addPoint player ps).take i = addPoint player (ps.take i) := by
  simp [addPoint, List.map_take]

theorem addPoint_hands (player : String) (ps : List Player) :
    (addPoint player ps).map (fun p => p.Cards) = ps.map (fun p => p.Cards) := by
  induction ps with
  | nil => rfl
  | cons p ps ih =>
    simp only [addPoint, List.map_cons] at ih ⊢
    rw [ih]
    by_cases hp : p.Name = player <;> simp [hp]

theorem addPoint_getElem? (player : String) (ps : List Player) (i : Nat) (p : Player)
    (h : ps[i]? = some p) :
    (addPoint player ps)[i]? =
      some (if p.Name = player then { p with Score := wrapInt64 (p.Score + 1) } else p) := by
  simp [addPoint, List.getElem?_map, h]

theorem perm_deal_step (deck1 flat1 rest flat hand : List String) (c : String)
    (h : (deck1 ++ flat1).Perm (rest ++ flat)) :
    (deck1 ++ ((hand ++ [c]) ++ flat1)).Perm ((c :: rest) ++ (hand ++ flat)) := by
  rw [List.perm_iff_count] at h ⊢
  intro a
  have ha := h a
  simp only [List.count_append, List.count_cons, List.count_nil] at ha ⊢
  omega

/-- The dealing loop moves cards from the deck to hands: the deck together with the
hands is a rearrangement of what it was, and no hand grows beyond `InitialHand`. -/
theorem dealLoop_conserves (ps : List Player) (deck : List String)
    (h : shortHanded ps ≤ deck.length) :
    ∃ ps1 deck1, dealLoop ps deck = .ok (ps1, deck1) ∧
      (deck1 ++ (ps1.map (fun p => p.Cards)).flatten).Perm
        (deck ++ (ps.map (fun p => p.Cards)).flatten) ∧
      ((∀ p ∈ ps, p.Cards.length ≤ InitialHand) → ∀ p ∈ ps1, p.Cards.length ≤ InitialHand) := by
  induction ps generalizing deck with
  | nil => exact ⟨[], deck, rfl, List.Perm.refl _, fun _ p hp => by simp at hp⟩
  | cons x xs ih =>
    by_cases hfull : InitialHand ≤ x.Cards.length
    · have hx : ¬ x.Cards.length < InitialHand := by omega
      have hcount : shortHanded (x :: xs) = shortHanded xs := by
        simp [shortHanded, hx]
      rw [hcount] at h
      obtain ⟨ps1, deck1, hd, hperm, hb⟩ := ih deck h
      refine ⟨x :: ps1, deck1, by simp [dealLoop, hfull, hd], ?_, ?_⟩
      · simp only [List.map_cons, List.flatten_cons]
        have h1 : (deck1 ++ (x.Cards ++ (ps1.map (fun p => p.Cards)).flatten)).Perm
            (x.Cards ++ (deck1 ++ (ps1.map (fun p => p.Cards)).flatten)) := by
          rw [← List.append_assoc, ← List.append_assoc]
          exact List.Perm.append_right _ List.perm_append_comm
        have h2 : (x.Cards ++ (deck ++ (xs.map (fun p => p.Cards)).flatten)).Perm
            (deck ++ (x.Cards ++ (xs.map (fun p => p.Cards)).flatten)) := by
          rw [← List.append_assoc, ← List.append_assoc]
          exact List.Perm.append_right _ List.perm_append_comm
        exact h1.trans ((List.Perm.append_left _ hperm).trans h2)
      · intro hall p hp
        rcases List.mem_cons.mp hp with rfl | hp1
        · exact hall _ (List.mem_cons_self _ _)
        · exact hb (fun q hq => hall q (List.mem_cons_of_mem _ hq)) p hp1
    · have hx : x.Cards.length < InitialHand := by omega
      have hcount : shortHanded (x :: xs) = shortHanded xs + 1 := by
        simp [shortHanded, hx]
      rw [hcount] at h
      cases deck with
      | nil => simp at h
      | cons c rest =>
        simp only [List.length_cons] at h
        obtain ⟨ps1, deck1, hd, hperm, hb⟩ := ih rest (by omega)
        refine ⟨{ x with Cards := x.Cards ++ [c] } :: ps1, deck1,
          by simp [dealLoop, hfull, hd], ?_, ?_⟩
        · simp only [List.map_cons, List.flatten_cons]
          exact perm_deal_step deck1 _ rest _ x.Cards c hperm
        · intro hall p hp
          rcases List.mem_cons.mp hp with rfl | hp1
          · simp only [List.length_append, List.length_singleton]
            omega
          · exact hb (fun q hq => hall q (List.mem_cons_of_mem _ hq)) p hp1

/-- `newRound` in detail: with an empty prompt deck, or fewer response cards than
players, roster and response deck are kept; otherwise they are the result of the dealing
loop. -/
theorem newRound_deal (g : Game) :
    ∃ g1 evs, newRound g = .ok (g1, evs) ∧
      ((g.Blackdeck = [] ∨ g.Whitedeck.length < g.Players.length) →
        g1.Players = g.Players ∧ g1.Whitedeck = g.Whitedeck) ∧
      (g.Blackdeck ≠ [] → g.Players.length ≤ g.Whitedeck.length →
        dealLoop g.Players g.Whitedeck = .ok (g1.Players, g1.Whitedeck)) := by
  cases hb : g.Blackdeck with
  | nil =>
    refine ⟨{ g with Submitted := [] }, [], by simp [newRound, hb], fun _ => ⟨rfl, rfl⟩, ?_⟩
    intro h; exact absurd rfl h
  | cons q rest =>
    obtain ⟨c, hc, _, _⟩ := rotateLoop_total g.Players g.CardCzar
    by_cases hw : g.Whitedeck.length < g.Players.length
    · have hnr : ∃ evs, newRound g =
          .ok ({ g with Submitted := [], Question := q, Blackdeck := rest, CardCzar := c },
               evs) := by
        simp only [newRound, hb, hc, hw, if_true]
        exact ⟨_, rfl⟩
      obtain ⟨evs, hnr⟩ := hnr
      refine ⟨_, evs, hnr, fun _ => ⟨rfl, rfl⟩, ?_⟩
      intro _ hle
      omega
    · obtain ⟨ps1, deck1, hd, _⟩ := dealLoop_total g.Players g.Whitedeck (by omega)
      have hnr : ∃ evs, newRound g =
          .ok ({ g with Submitted := [], Question := q, Blackdeck := rest, CardCzar := c,
                        Players := ps1, Whitedeck := deck1 }, evs) := by
        simp only [newRound, hb, hc, hw, if_false, hd]
        exact ⟨_, rfl⟩
      obtain ⟨evs, hnr⟩ := hnr
      refine ⟨_, evs, hnr, ?_, fun _ _ => hd⟩
      intro hor
      rcases hor with h1 | h1
      · simp at h1
      · exact absurd h1 hw

/-- `chooseWinner` in detail: it returns, empties the submissions, keeps the names and
scores one point for the name given; roster and response deck are then either kept or
the result of the dealing loop. -/
theorem chooseWinner_detail (g : Game) (player : String) :
    ∃ g1 evs, chooseWinner g player = .ok (g1, evs) ∧ g1.Submitted = [] ∧
      g1.Name = g.Name ∧ names g1 = names g ∧
      scores g1 =
        g.Players.map (fun p => if p.Name = player then wrapInt64 (p.Score + 1)
          else p.Score) ∧
      (g.Blackdeck = [] →
        g1 = { g with Players := addPoint player g.Players, Submitted := [] } ∧ evs = []) ∧
      ((g.Blackdeck = [] ∨ g.Whitedeck.length < g.Players.length) →
        g1.Players = addPoint player g.Players ∧ g1.Whitedeck = g.Whitedeck) ∧
      (g.Blackdeck ≠ [] → g.Players.length ≤ g.Whitedeck.length →
        dealLoop (addPoint player g.Players) g.Whitedeck = .ok (g1.Players, g1.Whitedeck)) := by
  obtain ⟨g1, evs, hr, hsub, hname, hn, hs, hnil, _⟩ :=
    newRound_total { g with Players := addPoint player g.Players }
  obtain ⟨g2, evs2, hr2, hkeep, hdeal⟩ :=
    newRound_deal { g with Players := addPoint player g.Players }
  have hsame : g2 = g1 := by
    rw [hr] at hr2
    simp only [Except.ok.injEq, Prod.mk.injEq] at hr2
    exact hr2.1.symm
  subst hsame
  have hlen : (addPoint player g.Players).length = g.Players.length := by
    simp [addPoint]
  refine ⟨g2, evs, hr, hsub, hname, ?_, ?_, ?_, ?_, ?_⟩
  · simp only [names, hn]
    exact addPoint_names player g.Players
  · simp only [scores, hs]
    exact addPoint_scores player g.Players
  · intro hb
    exact hnil hb
  · intro hor
    apply hkeep
    rcases hor with h1 | h1
    · exact Or.inl h1
    · refine Or.inr ?_
      simp only [hlen]
      exact h1
  · intro hb hle
    exact hdeal hb (by simp only [hlen]; exact hle)

/-- With two or more players, a roster name and no submission under it, every card index
inside the hand of the player (the last roster entry with the name) is accepted. -/
theorem submitCard_in_range (g : Game) (p : String) (h2 : 2 ≤ g.Players.length)
    (hin : p ∈ names g) (hns : p ∉ submitters g) :
    ∃ (idx : Nat) (pl : Player), g.Players[idx]? = some pl ∧ pl.Name = p ∧
      (∀ (m : Nat) (q : Player), idx < m → g.Players[m]? = some q → q.Name ≠ p) ∧
      ∀ card : Int, 0 ≤ card → card < (pl.Cards.length : Int) →
        ∃ g2 evs2, submitCard g p card = .ok (g2, evs2, none) := by
  obtain ⟨idx, pl, _, hget, hname, hlast, _⟩ := submitCard_valid_player g p 0 h2 hin hns
  refine ⟨idx, pl, hget, hname, hlast, ?_⟩
  intro card h0 hlt
  obtain ⟨idx1, pl1, _, hget1, hname1, hlast1, heq⟩ :=
    submitCard_valid_player g p card h2 hin hns
  have hidx : idx1 = idx := by
    rcases Nat.lt_trichotomy idx1 idx with hl | he | hg
    · exact absurd hname (hlast1 idx pl hl hget)
    · exact he
    · exact absurd hname1 (hlast idx1 pl1 hg hget1)
  subst hidx
  have hpl : pl1 = pl := by
    rw [hget1] at hget
    exact Option.some.inj hget
  subst hpl
  have hnat : card.toNat < pl1.Cards.length := by omega
  have h1 : ¬ (pl1.Cards.length : Int) ≤ card := by omega
  have h3 : ¬ card < 0 := by omega
  rw [heq, if_neg h1, if_neg h3, List.getElem?_eq_getElem hnat]
  exact ⟨_, _, rfl⟩

theorem scoreAfter_of_range (n : Nat) (score : Int) (h1 : minInt64 ≤ score)
    (h2 : score + (n : Int) ≤ maxInt64) : scoreAfter n score = score + (n : Int) := by
  induction n generalizing score with
  | zero => simp [scoreAfter]
  | succ n ih =>
    have hstep : wrapInt64 (score + 1) = score + 1 := by
      apply wrapInt64_of_range
      · unfold minInt64 at h1 ⊢; omega
      · unfold maxInt64 at h2 ⊢; omega
    have hrest := ih (score + 1) (by unfold minInt64 at h1 ⊢; omega) (by omega)
    unfold scoreAfter at hrest ⊢
    rw [Function.iterate_succ_apply, hstep, hrest]
    push_cast
    omega

/-- Repeated `chooseWinner` calls on an empty prompt deck: every call returns and only
scores and submissions move. -/
theorem run_choose_exhausted (g : Game) (hb : g.Blackdeck = []) (players : List String) :
    ∃ g1, run g (players.map Action.choose) = .ok g1 ∧
      g1.Question = g.Question ∧ g1.CardCzar = g.CardCzar ∧ hands g1 = hands g ∧
      names g1 = names g ∧ g1.Whitedeck = g.Whitedeck ∧ g1.Blackdeck = [] ∧
      g1.Name = g.Name ∧ (players ≠ [] → g1.Submitted = []) ∧
      scores g1 = g.Players.map (fun p => scoreAfter (List.count p.Name players) p.Score) := by
  induction players generalizing g with
  | nil =>
    refine ⟨g, rfl, rfl, rfl, rfl, rfl, rfl, hb, rfl, fun h => absurd rfl h, ?_⟩
    simp [scores, scoreAfter]
  | cons a as ih =>
    obtain ⟨g2, evs, hr, hsub, _, _, _, hnil, _, _⟩ := chooseWinner_detail g a
    obtain ⟨hg2, _⟩ := hnil hb
    have hb2 : g2.Blackdeck = [] := by rw [hg2]; exact hb
    obtain ⟨g1, hrun, hq, hc, hh, hn, hw, hbd, hnm, hs, hsc⟩ := ih g2 hb2
    refine ⟨g1, ?_, ?_, ?_, ?_, ?_, ?_, hbd, ?_, ?_, ?_⟩
    · simp only [List.map_cons, run, step, hr]
      exact hrun
    · rw [hq, hg2]
    · rw [hc, hg2]
    · rw [hh, hg2]
      simp only [hands]
      exact addPoint_hands a g.Players
    · rw [hn, hg2]
      simp only [names]
      exact addPoint_names a g.Players
    · rw [hw, hg2]
    · rw [hnm, hg2]
    · intro _
      cases as with
      | nil =>
        simp only [List.map_nil, run, Except.ok.injEq] at hrun
        rw [← hrun]; exact hsub
      | cons b bs => exact hs (by simp)
    · rw [hsc, hg2]
      simp only [addPoint, List.map_map]
      apply List.map_congr_left
      intro p _
      by_cases hp : p.Name = a
      · have hcount : List.count p.Name (a :: as) = List.count p.Name as + 1 := by
          simp [List.count_cons, hp]
        rw [hcount]
        simp only [Function.comp, hp, if_true, scoreAfter]
        rw [Function.iterate_succ_apply]
      · have hcount : List.count p.Name (a :: as) = List.count p.Name as := by
          have : ¬ a = p.Name := fun h => hp h.symm
          simp [List.count_cons, this]
        simp only [Function.comp, hp, if_false, hcount]

/-! ## The round advance, as claimed -/

/-- C11: with an empty prompt deck `chooseWinner` returns without drawing a prompt and
without advancing the round: the game it leaves differs from the game it was given only
in the score of the players carrying the name, which `Score += 1` has run on, and in the
submissions, which are empty, and no event is issued; prompt, czar, hands, names,
response deck and the empty prompt deck are the same.  The same holds after any number
of such calls, the score of a player being what as many executions of `Score += 1` as
there were calls with the name of the player leave, which is the score plus that number
as long as the largest `int` is not passed. -/
theorem chooseWinner_exhausted (g : Game) (hb : g.Blackdeck = []) :
    (∀ player : String,
      chooseWinner g player =
        .ok ({ g with Players := addPoint player g.Players, Submitted := [] }, []) ∧
      (addPoint player g.Players).map (fun p => p.Cards) = hands g ∧
      (addPoint player g.Players).map (fun p => p.Name) = names g ∧
      (addPoint player g.Players).map (fun p => p.Score) =
        g.Players.map (fun p => if p.Name = player then wrapInt64 (p.Score + 1)
          else p.Score)) ∧
    (∀ players : List String,
      ∃ g1, run g (players.map Action.choose) = .ok g1 ∧
        g1.Question = g.Question ∧ g1.CardCzar = g.CardCzar ∧ hands g1 = hands g ∧
        names g1 = names g ∧ g1.Whitedeck = g.Whitedeck ∧ g1.Blackdeck = [] ∧
        g1.Name = g.Name ∧ (players ≠ [] → g1.Submitted = []) ∧
        scores g1 =
          g.Players.map (fun p => scoreAfter (List.count p.Name players) p.Score)) ∧
    (∀ (n : Nat) (score : Int), minInt64 ≤ score → score + (n : Int) ≤ maxInt64 →
      scoreAfter n score = score + (n : Int)) := by
  refine ⟨?_, ?_, ?_⟩
  · intro player
    obtain ⟨g1, evs, hr, _, _, _, _, hnil, _, _⟩ := chooseWinner_detail g player
    obtain ⟨hg, he⟩ := hnil hb
    subst hg
    subst he
    exact ⟨hr, addPoint_hands player g.Players, addPoint_names player g.Players,
      addPoint_scores player g.Players⟩
  · intro players
    exact run_choose_exhausted g hb players
  · intro n score h1 h2
    exact scoreAfter_of_range n score h1 h2

theorem chooseWinner_exhausted_witness :
    sampleExhausted.Blackdeck = [] ∧
    chooseWinner sampleExhausted "bob" = .ok (sampleExhaustedAfter, []) ∧
    ∃ g1, run sampleExhausted (["bob", "bob", "alice"].map Action.choose) = .ok g1 ∧
      g1.Question = "q9" ∧ g1.CardCzar = "alice" ∧ hands g1 = [["a"], ["b"]] ∧
      g1.Whitedeck = ["c", "d", "e"] ∧ g1.Blackdeck = [] ∧ scores g1 = [1, 2] := by
  refine ⟨rfl, ((chooseWinner_exhausted sampleExhausted rfl).1 "bob").1, ?_⟩
  obtain ⟨g1, h1, h2, h3, h4, _, h6, h7, _, _, h10⟩ :=
    (chooseWinner_exhausted sampleExhausted rfl).2.1 ["bob", "bob", "alice"]
  exact ⟨g1, h1, h2, h3, h4, h6, h7, by rw [h10]; decide⟩

/-- C12: hand replenishment in `chooseWinner` with a non-empty prompt deck.  With fewer
response cards than players no hand and no response card changes.  Otherwise the
response deck loses from its head as many cards as there are hands below `InitialHand`,
every such hand gets exactly one card at its end, the cards going out in roster order,
and every hand of `InitialHand` cards or more is kept. -/
theorem chooseWinner_replenishes (g : Game) (player : String) (hb : g.Blackdeck ≠ []) :
    ∃ g1 evs, chooseWinner g player = .ok (g1, evs) ∧
      (g.Whitedeck.length < g.Players.length →
        hands g1 = hands g ∧ g1.Whitedeck = g.Whitedeck) ∧
      (g.Players.length ≤ g.Whitedeck.length →
        g1.Whitedeck = g.Whitedeck.drop (shortHanded g.Players) ∧
        g1.Whitedeck.length + shortHanded g.Players = g.Whitedeck.length ∧
        g1.Players.length = g.Players.length ∧
        ∀ (i : Nat) (p : Player), g.Players[i]? = some p →
          ∃ q, g1.Players[i]? = some q ∧ q.Name = p.Name ∧
            (InitialHand ≤ p.Cards.length → q.Cards = p.Cards) ∧
            (p.Cards.length < InitialHand →
              ∃ c, g.Whitedeck[shortHanded (g.Players.take i)]? = some c ∧
                q.Cards = p.Cards ++ [c])) := by
  obtain ⟨g1, evs, hr, _, _, _, _, _, hkeep, hdeal⟩ := chooseWinner_detail g player
  refine ⟨g1, evs, hr, ?_, ?_⟩
  · intro hlt
    obtain ⟨hp, hw⟩ := hkeep (Or.inr hlt)
    refine ⟨?_, hw⟩
    simp only [hands, hp]
    exact addPoint_hands player g.Players
  · intro hle
    have hshort : shortHanded (addPoint player g.Players) ≤ g.Whitedeck.length := by
      rw [shortHanded_addPoint]
      exact le_trans (shortHanded_le_length g.Players) hle
    obtain ⟨ps1, hd, hl, hget⟩ := dealLoop_spec (addPoint player g.Players) g.Whitedeck hshort
    have hd1 := hdeal hb hle
    rw [hd] at hd1
    simp only [Except.ok.injEq, Prod.mk.injEq] at hd1
    obtain ⟨hps, hdeck⟩ := hd1
    rw [shortHanded_addPoint] at hdeck
    refine ⟨hdeck.symm, ?_, ?_, ?_⟩
    · rw [← hdeck, List.length_drop]
      have := shortHanded_le_length g.Players
      omega
    · rw [← hps, hl]
      simp [addPoint]
    · intro i p hp
      obtain ⟨p1, hp1, hcards, hnm⟩ : ∃ p1, (addPoint player g.Players)[i]? = some p1 ∧
          p1.Cards = p.Cards ∧ p1.Name = p.Name := by
        refine ⟨_, addPoint_getElem? player g.Players i p hp, ?_, ?_⟩
        · by_cases hn : p.Name = player <;> simp [hn]
        · by_cases hn : p.Name = player <;> simp [hn]
      obtain ⟨hfull, hlow⟩ := hget i p1 hp1
      by_cases hf : InitialHand ≤ p.Cards.length
      · refine ⟨p1, by rw [← hps]; exact hfull (by rw [hcards]; exact hf), hnm,
          fun _ => hcards, fun hlt => by omega⟩
      · obtain ⟨c, hc, hq⟩ := hlow (by rw [hcards]; omega)
        rw [addPoint_take, shortHanded_addPoint] at hc
        refine ⟨{ p1 with Cards := p1.Cards ++ [c] }, by rw [← hps]; exact hq, hnm,
          fun h => absurd h hf, fun _ => ⟨c, hc, ?_⟩⟩
        simp [hcards]

theorem chooseWinner_replenishes_witness :
    (sampleRevealed.Blackdeck ≠ [] ∧
      sampleRevealed.Players.length ≤ sampleRevealed.Whitedeck.length ∧
      sampleTrio.Blackdeck ≠ [] ∧ sampleTrio.Whitedeck.length < sampleTrio.Players.length) ∧
    chooseWinner sampleRevealed "bob" =
      .ok (sampleNextRound, updateHeader { sampleNextRound with
              Players := addPoint "bob" sampleRevealed.Players,
              Whitedeck := sampleRevealed.Whitedeck } ++ updateHands sampleNextRound) ∧
    (∃ g1 evs, chooseWinner sampleRevealed "bob" = .ok (g1, evs) ∧
      g1.Whitedeck = sampleRevealed.Whitedeck.drop (shortHanded sampleRevealed.Players)) ∧
    (∃ g1 evs, chooseWinner sampleTrio "bob" = .ok (g1, evs) ∧
      hands g1 = hands sampleTrio ∧ g1.Whitedeck = sampleTrio.Whitedeck) := by
  refine ⟨⟨by decide, by decide, by decide, by decide⟩, rfl, ?_, ?_⟩
  · obtain ⟨g1, evs, h1, _, h3⟩ := chooseWinner_replenishes sampleRevealed "bob" (by decide)
    exact ⟨g1, evs, h1, (h3 (by decide)).1⟩
  · obtain ⟨g1, evs, h1, h2, _⟩ := chooseWinner_replenishes sampleTrio "bob" (by decide)
    exact ⟨g1, evs, h1, h2 (by decide)⟩

/-- C13: `chooseWinner` returns for every game and every name, with or without prompts
left, and leaves the submissions empty; so in the game it leaves, if that has two players
or more, a submit under any roster name with a card index inside the hand of that player
succeeds. -/
theorem chooseWinner_clears_submissions (g : Game) (player : String) :
    ∃ g1 evs, chooseWinner g player = .ok (g1, evs) ∧ g1.Submitted = [] ∧
      (2 ≤ g1.Players.length → ∀ p ∈ names g1,
        ∃ (idx : Nat) (pl : Player), g1.Players[idx]? = some pl ∧ pl.Name = p ∧
          (∀ (m : Nat) (q : Player), idx < m → g1.Players[m]? = some q → q.Name ≠ p) ∧
          ∀ card : Int, 0 ≤ card → card < (pl.Cards.length : Int) →
            ∃ g2 evs2, submitCard g1 p card = .ok (g2, evs2, none)) := by
  obtain ⟨g1, evs, hr, hsub, _⟩ := chooseWinner_detail g player
  refine ⟨g1, evs, hr, hsub, ?_⟩
  intro h2 p hp
  exact submitCard_in_range g1 p h2 hp (by simp [submitters, hsub])

theorem chooseWinner_clears_submissions_witness :
    (chooseWinner sampleExhausted "bob" = .ok (sampleExhaustedAfter, []) ∧
      2 ≤ sampleExhaustedAfter.Players.length ∧ "bob" ∈ names sampleExhaustedAfter) ∧
    ∃ g2 evs2, submitCard sampleExhaustedAfter "bob" 0 = .ok (g2, evs2, none) := by
  refine ⟨⟨rfl, by decide, by decide⟩, ?_⟩
  obtain ⟨g1, evs, hr, _, hsub⟩ := chooseWinner_clears_submissions sampleExhausted "bob"
  have hg : g1 = sampleExhaustedAfter := by
    have h0 : chooseWinner sampleExhausted "bob" = .ok (sampleExhaustedAfter, []) := rfl
    rw [h0] at hr
    simp only [Except.ok.injEq, Prod.mk.injEq] at hr
    exact hr.1.symm
  subst hg
  obtain ⟨idx, pl, hget, hname, hlast, hcard⟩ := hsub (by decide) "bob" (by decide)
  have hidx : idx = 1 := by
    have hlt : idx < 2 := by
      rcases List.getElem?_eq_some.mp hget with ⟨hh, _⟩
      simpa [sampleExhaustedAfter] using hh
    rcases Nat.lt_or_ge idx 1 with h0 | h1
    · have : idx = 0 := by omega
      subst this
      simp [sampleExhaustedAfter, sampleExhausted] at hget
      rw [← hget] at hname
      simp at hname
    · omega
  subst hidx
  have hpl : pl = ⟨"bob", 1, ["b"]⟩ := by
    simp [sampleExhaustedAfter, sampleExhausted] at hget
    exact hget.symm
  subst hpl
  exact hcard 0 (by decide) (by decide)

/-- C17: `chooseWinner` never panics.  For every game (any roster, also empty, any
decks, also empty, any hands) and every name it returns; the czar loop returns for every
roster and czar, and the dealing loop returns whenever the guard in front of it has
passed, so that it never reads the head of an empty response deck. -/
theorem chooseWinner_never_panics (g : Game) (player : String) :
    (∃ g1 evs, chooseWinner g player = .ok (g1, evs)) ∧
    (∀ f : Fault, chooseWinner g player ≠ .error f) ∧
    (∀ (ps : List Player) (czar : String), ∃ c, rotateLoop ps czar ps 0 = .ok c) ∧
    (∀ (ps : List Player) (deck : List String), ps.length ≤ deck.length →
      ∃ r, dealLoop ps deck = .ok r) := by
  obtain ⟨g1, evs, hr, _⟩ := chooseWinner_detail g player
  refine ⟨⟨g1, evs, hr⟩, ?_, ?_, ?_⟩
  · intro f hf
    rw [hr] at hf
    cases hf
  · intro ps czar
    obtain ⟨c, hc, _⟩ := rotateLoop_total ps czar
    exact ⟨c, hc⟩
  · intro ps deck hle
    obtain ⟨ps1, deck1, hd, _⟩ := dealLoop_total ps deck hle
    exact ⟨(ps1, deck1), hd⟩

theorem chooseWinner_never_panics_witness :
    chooseWinner sampleEmpty "nobody" = .ok (sampleEmpty, []) ∧
    (∃ g1 evs, chooseWinner sampleTrio "nobody" = .ok (g1, evs)) ∧
    (∃ r, dealLoop sampleRevealed.Players sampleRevealed.Whitedeck = .ok r) :=
  ⟨rfl, (chooseWinner_never_panics sampleTrio "nobody").1,
    (chooseWinner_never_panics sampleTrio "nobody").2.2.2 sampleRevealed.Players
      sampleRevealed.Whitedeck (by decide)⟩

/-! ## Errors and the reveal of `submitCard`, as claimed -/

/-- The events of a returning `submitCard`: the reveal when the call succeeded and the
submissions then number one less than the players, nothing otherwise. -/
theorem submitCard_events (g g1 : Game) (p : String) (card : Int) (evs : List Event)
    (r : Option SubmitError) (h : submitCard g p card = .ok (g1, evs, r)) :
    evs =
      if r = none ∧ (g1.Submitted.length : Int) = (g1.Players.length : Int) - 1 then
        [Event.publish (g1.Name ++ "_" ++ g1.CardCzar) "hand" (Payload.czarhand g1)]
      else [] := by
  cases r with
  | some e =>
    obtain ⟨_, he⟩ := submitCard_error_unchanged g g1 p card evs e h
    simp [he]
  | none =>
    unfold submitCard at h
    split at h
    · simp at h
    · split at h
      · simp at h
      · split at h
        · simp at h
        · split at h
          · simp at h
          · split at h
            · simp at h
            · split at h
              · simp at h
              · simp only [Except.ok.injEq, Prod.mk.injEq] at h
                obtain ⟨hg, he, _⟩ := h
                subst hg
                rw [← he]
                simp only [true_and, revealRound, topic]

/-- C19: whenever `submitCard` returns an error (round not started, unknown player,
duplicate submission or card index at or beyond the hand), the game it leaves is the
game it was given, with the same submissions, hands, scores, roster, decks, prompt and
czar, and no event, so no reveal, is issued. -/
theorem submitCard_error_keeps_state (g g1 : Game) (p : String) (card : Int)
    (evs : List Event) (e : SubmitError) (h : submitCard g p card = .ok (g1, evs, some e)) :
    g1 = g ∧ evs = [] ∧
    (e = .roundNotStarted ∨ e = .unknownPlayer p g.Name ∨ e = .duplicateSubmission p ∨
      e = .invalidCard card) := by
  obtain ⟨hg, he⟩ := submitCard_error_unchanged g g1 p card evs e h
  refine ⟨hg, he, ?_⟩
  unfold submitCard at h
  split at h
  · simp only [Except.ok.injEq, Prod.mk.injEq, Option.some.injEq] at h
    exact Or.inl h.2.2.symm
  · split at h
    · simp only [Except.ok.injEq, Prod.mk.injEq, Option.some.injEq] at h
      exact Or.inr (Or.inl h.2.2.symm)
    · split at h
      · simp only [Except.ok.injEq, Prod.mk.injEq, Option.some.injEq] at h
        exact Or.inr (Or.inr (Or.inl h.2.2.symm))
      · split at h
        · simp only [Except.ok.injEq, Prod.mk.injEq, Option.some.injEq] at h
          exact Or.inr (Or.inr (Or.inr h.2.2.symm))
        · split at h
          · simp at h
          · split at h
            · simp at h
            · simp at h

theorem submitCard_error_keeps_state_witness :
    submitCard sampleRevealed "bob" 2 =
      .ok (sampleRevealed, [], some (.duplicateSubmission "bob")) ∧
    (sampleRevealed = sampleRevealed ∧ ([] : List Event) = [] ∧
      ((SubmitError.duplicateSubmission "bob") = .roundNotStarted ∨
        (SubmitError.duplicateSubmission "bob") = .unknownPlayer "bob" sampleRevealed.Name ∨
        (SubmitError.duplicateSubmission "bob") = .duplicateSubmission "bob" ∨
        (SubmitError.duplicateSubmission "bob") = .invalidCard 2)) :=
  ⟨rfl, submitCard_error_keeps_state sampleRevealed sampleRevealed "bob" 2 []
    (.duplicateSubmission "bob") rfl⟩

/-- C20: the reveal trigger.  A returning `submitCard` issues exactly one event, of kind
`hand`, on the stream `gameName_judge` of the card czar, when it succeeded and the
submissions, the new one included, number `len(players) - 1`; in every other case, a
returned error or another number of submissions, it issues no event. -/
theorem submitCard_reveal_trigger (g g1 : Game) (p : String) (card : Int) (evs : List Event)
    (r : Option SubmitError) (h : submitCard g p card = .ok (g1, evs, r)) :
    ((r = none ∧ (g1.Submitted.length : Int) = (g1.Players.length : Int) - 1) →
      evs = [Event.publish (g.Name ++ "_" ++ g.CardCzar) "hand" (Payload.czarhand g1)]) ∧
    (¬ (r = none ∧ (g1.Submitted.length : Int) = (g1.Players.length : Int) - 1) →
      evs = []) ∧
    (evs ≠ [] ↔ (r = none ∧ (g1.Submitted.length : Int) = (g1.Players.length : Int) - 1)) := by
  have hev := submitCard_events g g1 p card evs r h
  obtain ⟨_, hcz, _⟩ := submitCard_frame g g1 p card evs r h
  have hname : g1.Name = g.Name := by
    cases r with
    | some e =>
      obtain ⟨hg, _⟩ := submitCard_error_unchanged g g1 p card evs e h
      rw [hg]
    | none =>
      obtain ⟨_, _, _, _, _, _, _, _, _, _, _, _, _, _, _, hn, _⟩ :=
        submitCard_ok_effect g g1 p card evs h
      exact hn
  by_cases hc : r = none ∧ (g1.Submitted.length : Int) = (g1.Players.length : Int) - 1
  · rw [if_pos hc, hname, hcz] at hev
    refine ⟨fun _ => hev, fun hn => absurd hc hn, ?_⟩
    constructor
    · intro _; exact hc
    · intro _; rw [hev]; simp
  · rw [if_neg hc] at hev
    refine ⟨fun h1 => absurd h1 hc, fun _ => hev, ?_⟩
    constructor
    · intro hne; exact absurd hev hne
    · intro h1; exact absurd h1 hc

theorem submitCard_reveal_trigger_witness :
    (submitCard sampleRound "bob" 0 =
        .ok (sampleRevealed,
          [Event.publish "g1_alice" "hand" (Payload.czarhand sampleRevealed)], none) ∧
      submitCard sampleRevealed "alice" 0 = .ok (sampleCzarAlso, [], none)) ∧
    ([Event.publish "g1_alice" "hand" (Payload.czarhand sampleRevealed)] ≠ [] ↔
      ((none : Option SubmitError) = none ∧
        (sampleRevealed.Submitted.length : Int) = (sampleRevealed.Players.length : Int) - 1)) ∧
    (¬ ((none : Option SubmitError) = none ∧
        (sampleCzarAlso.Submitted.length : Int) = (sampleCzarAlso.Players.length : Int) - 1) →
      ([] : List Event) = []) :=
  ⟨⟨rfl, rfl⟩,
   (submitCard_reveal_trigger sampleRound sampleRevealed "bob" 0 _ none rfl).2.2,
   (submitCard_reveal_trigger sampleRevealed sampleCzarAlso "alice" 0 [] none rfl).2.1⟩

/-! ## Invariants of the roster and of the cards -/

theorem rosterInv_step (g g1 : Game) (a : Action) (hinv : RosterInv g)
    (hs : step g a = .ok g1) : RosterInv g1 := by
  obtain ⟨hnd, hin⟩ := hinv
  have hplayers : ∀ h : Game, h.Players = [] ↔ names h = [] := by
    intro h; simp [names]
  cases a with
  | join p =>
    simp only [step] at hs
    cases hu : upsertPlayer g p with
    | error f => rw [hu] at hs; simp at hs
    | ok r =>
      obtain ⟨pl, g2, evs⟩ := r
      rw [hu] at hs
      simp only [Except.ok.injEq] at hs
      subst hs
      obtain ⟨_, hcase⟩ := upsertPlayer_frame g g2 p pl evs hu
      rcases hcase with ⟨hg, _⟩ | ⟨hnew, hnames, hczar⟩
      · subst hg; exact ⟨hnd, hin⟩
      · refine ⟨?_, ?_⟩
        · rw [hnames]
          exact List.Nodup.append hnd (List.nodup_singleton p) (by simpa using hnew)
        · intro _
          rw [hnames, hczar]
          by_cases hp : g.Players = []
          · rw [if_pos hp]; simp
          · rw [if_neg hp]; exact List.mem_append_left _ (hin hp)
  | submit p c =>
    simp only [step] at hs
    cases hu : submitCard g p c with
    | error f => rw [hu] at hs; simp at hs
    | ok r =>
      obtain ⟨g2, evs, e⟩ := r
      rw [hu] at hs
      simp only [Except.ok.injEq] at hs
      subst hs
      obtain ⟨hnames, hczar, _⟩ := submitCard_frame g g2 p c evs e hu
      refine ⟨by rw [hnames]; exact hnd, ?_⟩
      intro h1
      rw [hnames, hczar]
      apply hin
      intro h2
      apply h1
      rw [hplayers, hnames, ← hplayers]
      exact h2
  | choose p =>
    simp only [step] at hs
    cases hu : chooseWinner g p with
    | error f => rw [hu] at hs; simp at hs
    | ok r =>
      obtain ⟨g2, evs⟩ := r
      rw [hu] at hs
      simp only [Except.ok.injEq] at hs
      subst hs
      obtain ⟨hnames, _, _, hczin⟩ := chooseWinner_frame g g2 p evs hu
      refine ⟨by rw [hnames]; exact hnd, ?_⟩
      intro h1
      rw [hnames]
      apply hczin
      apply hin
      intro h2
      apply h1
      rw [hplayers, hnames, ← hplayers]
      exact h2

theorem rosterInv_reachable (g0 g : Game) (h0 : g0.Players = []) (hr : Reachable g0 g) :
    RosterInv g := by
  induction hr with
  | init => exact ⟨by simp [names, h0], fun h => absurd h0 h⟩
  | next g g1 a _ hs ih => exact rosterInv_step g g1 a ih hs

theorem handsBounded_step (g g1 : Game) (a : Action) (hinv : HandsBounded g)
    (hs : step g a = .ok g1) : HandsBounded g1 := by
  cases a with
  | join p =>
    simp only [step] at hs
    cases hu : upsertPlayer g p with
    | error f => rw [hu] at hs; simp at hs
    | ok r =>
      obtain ⟨pl, g2, evs⟩ := r
      rw [hu] at hs
      simp only [Except.ok.injEq] at hs
      subst hs
      by_cases hin : p ∈ names g
      · obtain ⟨_, q, _, _, _, hq⟩ := upsertPlayer_known g p hin
        rw [hq] at hu
        simp only [Except.ok.injEq, Prod.mk.injEq] at hu
        obtain ⟨_, hg, _⟩ := hu
        subst hg
        exact hinv
      · have hlen : InitialHand ≤ g.Whitedeck.length := by
          by_contra hc
          rw [upsertPlayer_short_deck g p hin (by omega)] at hu
          cases hu
        obtain ⟨evs1, hq⟩ := upsertPlayer_new g p hin hlen
        rw [hq] at hu
        simp only [Except.ok.injEq, Prod.mk.injEq] at hu
        obtain ⟨_, hg, _⟩ := hu
        subst hg
        intro q hq1
        simp only [List.mem_append, List.mem_singleton] at hq1
        rcases hq1 with h1 | h1
        · exact hinv q h1
        · rw [h1]
          simp only [List.length_take]
          omega
  | submit p c =>
    simp only [step] at hs
    cases hu : submitCard g p c with
    | error f => rw [hu] at hs; simp at hs
    | ok r =>
      obtain ⟨g2, evs, e⟩ := r
      rw [hu] at hs
      simp only [Except.ok.injEq] at hs
      subst hs
      cases e with
      | some e =>
        obtain ⟨hg, _⟩ := submitCard_error_unchanged g g2 p c evs e hu
        subst hg
        exact hinv
      | none =>
        obtain ⟨idx, i, pl, cd, _, hget, _, _, _, _, hnew, hother, _⟩ :=
          submitCard_ok_effect g g2 p c evs hu
        intro q hq
        obtain ⟨m, hm⟩ := List.getElem?_of_mem hq
        by_cases hmi : m = idx
        · subst hmi
          rw [hnew] at hm
          simp only [Option.some.injEq] at hm
          rw [← hm]
          have h1 := hinv pl (List.getElem?_mem hget)
          have h2 := List.length_eraseIdx_le pl.Cards i
          simp only
          omega
        · rw [hother m hmi] at hm
          exact hinv q (List.getElem?_mem hm)
  | choose p =>
    simp only [step] at hs
    cases hu : chooseWinner g p with
    | error f => rw [hu] at hs; simp at hs
    | ok r =>
      obtain ⟨g2, evs⟩ := r
      rw [hu] at hs
      simp only [Except.ok.injEq] at hs
      subst hs
      have hadd : ∀ q ∈ addPoint p g.Players, q.Cards.length ≤ InitialHand := by
        intro q hq
        have hq1 : q.Cards ∈ (addPoint p g.Players).map (fun x => x.Cards) :=
          List.mem_map.mpr ⟨q, hq, rfl⟩
        rw [addPoint_hands] at hq1
        obtain ⟨q0, hq0, hq0c⟩ := List.mem_map.mp hq1
        rw [← hq0c]
        exact hinv q0 hq0
      obtain ⟨g3, evs3, hr, _, _, _, _, _, hkeep, hdeal⟩ := chooseWinner_detail g p
      rw [hr] at hu
      simp only [Except.ok.injEq, Prod.mk.injEq] at hu
      obtain ⟨hg, _⟩ := hu
      subst hg
      by_cases hcase : g.Blackdeck = [] ∨ g.Whitedeck.length < g.Players.length
      · obtain ⟨hp, _⟩ := hkeep hcase
        intro q hq
        rw [hp] at hq
        exact hadd q hq
      · have hb : g.Blackdeck ≠ [] := fun h => hcase (Or.inl h)
        have hle : g.Players.length ≤ g.Whitedeck.length := by
          by_contra hc
          exact hcase (Or.inr (by omega))
        have hshort : shortHanded (addPoint p g.Players) ≤ g.Whitedeck.length := by
          rw [shortHanded_addPoint]
          exact le_trans (shortHanded_le_length g.Players) hle
        obtain ⟨ps1, deck1, hd, _, hb1⟩ :=
          dealLoop_conserves (addPoint p g.Players) g.Whitedeck hshort
        have hd1 := hdeal hb hle
        rw [hd] at hd1
        simp only [Except.ok.injEq, Prod.mk.injEq] at hd1
        intro q hq
        rw [← hd1.1] at hq
        exact hb1 hadd q hq

/-- C14: in every game reachable from a fresh game by join, submit and choose-winner
calls, every hand holds at most `InitialHand` cards. -/
theorem hands_at_most_initial (blackDeck whiteDeck : List String) (permB permW : List Nat)
    (name : String) (g0 g : Game)
    (h0 : newGame blackDeck whiteDeck permB permW name = .ok g0) (hr : Reachable g0 g) :
    ∀ p ∈ g.Players, p.Cards.length ≤ 7 := by
  obtain ⟨hp0, _⟩ := newGame_fresh blackDeck whiteDeck permB permW name g0 h0
  have hinv : HandsBounded g := by
    induction hr with
    | init =>
      intro p hp
      rw [hp0] at hp
      simp at hp
    | next g g1 a _ hs ih => exact handsBounded_step g g1 a ih hs
  exact hinv

theorem hands_at_most_initial_witness :
    (newGame sampleBlack sampleWhite [0, 1, 2] (List.range 16) "g1" = .ok sampleFresh ∧
      Reachable sampleFresh sampleNextRound) ∧
    ∀ p ∈ sampleNextRound.Players, p.Cards.length ≤ 7 :=
  have hreach : Reachable sampleFresh sampleNextRound :=
    reachable_run sampleFresh sampleFresh sampleNextRound
      [.join "alice", .join "bob", .submit "bob" 0, .choose "bob"] Reachable.init rfl
  ⟨⟨rfl, hreach⟩,
    hands_at_most_initial sampleBlack sampleWhite [0, 1, 2] (List.range 16) "g1" sampleFresh
      sampleNextRound rfl hreach⟩

theorem count_names_eq_filter (ps : List Player) (c : String) :
    (ps.map (fun p => p.Name)).count c =
      (ps.filter (fun p => decide (p.Name = c))).length := by
  induction ps with
  | nil => rfl
  | cons p ps ih =>
    by_cases hp : p.Name = c
    · simp [hp, ih]
    · simp [hp, ih, List.count_cons]

/-- C18: in every game reachable from a fresh game by join, submit and choose-winner
calls, the names of the roster are pairwise distinct and, once a player exists, the card
czar is the name of exactly one player of the roster. -/
theorem czar_is_one_roster_player (blackDeck whiteDeck : List String)
    (permB permW : List Nat) (name : String) (g0 g : Game)
    (h0 : newGame blackDeck whiteDeck permB permW name = .ok g0) (hr : Reachable g0 g) :
    (names g).Nodup ∧
    (g.Players ≠ [] → g.CardCzar ∈ names g ∧ (names g).count g.CardCzar = 1 ∧
      (g.Players.filter (fun p => decide (p.Name = g.CardCzar))).length = 1) := by
  obtain ⟨hp0, _⟩ := newGame_fresh blackDeck whiteDeck permB permW name g0 h0
  obtain ⟨hnd, hin⟩ := rosterInv_reachable g0 g hp0 hr
  refine ⟨hnd, fun hne => ?_⟩
  have hcount : (names g).count g.CardCzar = 1 := List.count_eq_one_of_mem hnd (hin hne)
  refine ⟨hin hne, hcount, ?_⟩
  rw [← hcount]
  exact (count_names_eq_filter g.Players g.CardCzar).symm

theorem czar_is_one_roster_player_witness :
    (newGame sampleBlack sampleWhite [0, 1, 2] (List.range 16) "g1" = .ok sampleFresh ∧
      Reachable sampleFresh sampleOverfull ∧ sampleOverfull.Players ≠ []) ∧
    (names sampleOverfull).Nodup ∧ sampleOverfull.CardCzar ∈ names sampleOverfull ∧
    (names sampleOverfull).count sampleOverfull.CardCzar = 1 :=
  have hreach : Reachable sampleFresh sampleOverfull :=
    reachable_run sampleFresh sampleFresh sampleOverfull
      [.join "alice", .join "bob", .submit "alice" 0, .submit "bob" 0] Reachable.init rfl
  have h := czar_is_one_roster_player sampleBlack sampleWhite [0, 1, 2] (List.range 16) "g1"
    sampleFresh sampleOverfull rfl hreach
  ⟨⟨rfl, hreach, by decide⟩, h.1, (h.2 (by decide)).1, (h.2 (by decide)).2.1⟩

/-! ## Conservation of the cards -/

theorem perm_draw (deck flat : List String) (k : Nat) :
    (deck.drop k ++ (flat ++ deck.take k)).Perm (deck ++ flat) := by
  rw [List.perm_iff_count]
  intro a
  have h := congrArg (List.count a) (List.take_append_drop k deck)
  simp only [List.count_append] at h ⊢
  omega

/-- A returning join keeps the response cards: the deck and the hands together are a
rearrangement of what they were. -/
theorem upsertPlayer_conserves (g g1 : Game) (name : String) (p : Player) (evs : List Event)
    (h : upsertPlayer g name = .ok (p, g1, evs)) :
    (responseCards g1).Perm (responseCards g) ∧
    (name ∉ names g →
      p.Cards = g.Whitedeck.take p.Cards.length ∧ p.Cards.length = InitialHand ∧
      p.Cards.length ≤ g.Whitedeck.length ∧
      g1.Whitedeck = g.Whitedeck.drop p.Cards.length ∧
      g1.Whitedeck.length = g.Whitedeck.length - p.Cards.length ∧
      hands g1 = hands g ++ [p.Cards]) := by
  by_cases hin : name ∈ names g
  · obtain ⟨_, q, _, _, _, hq⟩ := upsertPlayer_known g name hin
    rw [hq] at h
    simp only [Except.ok.injEq, Prod.mk.injEq] at h
    obtain ⟨_, hg, _⟩ := h
    subst hg
    exact ⟨List.Perm.refl _, fun hn => absurd hin hn⟩
  · have hlen : InitialHand ≤ g.Whitedeck.length := by
      by_contra hc
      rw [upsertPlayer_short_deck g name hin (by omega)] at h
      cases h
    obtain ⟨evs1, hq⟩ := upsertPlayer_new g name hin hlen
    rw [hq] at h
    simp only [Except.ok.injEq, Prod.mk.injEq] at h
    obtain ⟨hp, hg, _⟩ := h
    subst hg
    subst hp
    have hk : (g.Whitedeck.take InitialHand).length = InitialHand := by
      simp only [List.length_take]
      omega
    refine ⟨?_, fun _ => ?_⟩
    · simp only [responseCards, hands, List.map_append, List.map_cons, List.map_nil,
        List.flatten_append, List.flatten_cons, List.flatten_nil, List.append_nil]
      exact perm_draw g.Whitedeck _ InitialHand
    · dsimp only
      refine ⟨by rw [hk], hk, by rw [hk]; exact hlen, by rw [hk], ?_, by simp [hands]⟩
      rw [hk, List.length_drop]

/-- A returning `chooseWinner` keeps the response cards: the deck and the hands together
are a rearrangement of what they were. -/
theorem chooseWinner_conserves (g g1 : Game) (player : String) (evs : List Event)
    (h : chooseWinner g player = .ok (g1, evs)) :
    (responseCards g1).Perm (responseCards g) := by
  obtain ⟨g3, evs3, hr, _, _, _, _, _, hkeep, hdeal⟩ := chooseWinner_detail g player
  rw [hr] at h
  simp only [Except.ok.injEq, Prod.mk.injEq] at h
  obtain ⟨hg, _⟩ := h
  subst hg
  by_cases hcase : g.Blackdeck = [] ∨ g.Whitedeck.length < g.Players.length
  · obtain ⟨hp, hw⟩ := hkeep hcase
    simp only [responseCards, hands, hp, hw, addPoint_hands]
    exact List.Perm.refl _
  · have hb : g.Blackdeck ≠ [] := fun h => hcase (Or.inl h)
    have hle : g.Players.length ≤ g.Whitedeck.length := by
      by_contra hc
      exact hcase (Or.inr (by omega))
    have hshort : shortHanded (addPoint player g.Players) ≤ g.Whitedeck.length := by
      rw [shortHanded_addPoint]
      exact le_trans (shortHanded_le_length g.Players) hle
    obtain ⟨ps1, deck1, hd, hperm, _⟩ :=
      dealLoop_conserves (addPoint player g.Players) g.Whitedeck hshort
    have hd1 := hdeal hb hle
    rw [hd] at hd1
    simp only [Except.ok.injEq, Prod.mk.injEq] at hd1
    obtain ⟨hps, hdk⟩ := hd1
    rw [addPoint_hands] at hperm
    simp only [responseCards, hands, ← hps, ← hdk]
    exact hperm

/-- C15: drawing conserves the response cards.  A join that returns leaves the response
deck and the hands together a rearrangement of what they were; when it draws, the `k`
cards of the new hand are the first `k` of a deck of `n ≥ k` cards and the deck is left
with its other `n - k` cards.  A `chooseWinner` that returns leaves the response deck
and the hands together a rearrangement of what they were. -/
theorem response_cards_conserved :
    (∀ (g g1 : Game) (name : String) (p : Player) (evs : List Event),
      upsertPlayer g name = .ok (p, g1, evs) →
      (responseCards g1).Perm (responseCards g) ∧
      (name ∉ names g →
        p.Cards = g.Whitedeck.take p.Cards.length ∧
        p.Cards.length ≤ g.Whitedeck.length ∧
        g1.Whitedeck = g.Whitedeck.drop p.Cards.length ∧
        g1.Whitedeck.length = g.Whitedeck.length - p.Cards.length ∧
        hands g1 = hands g ++ [p.Cards])) ∧
    (∀ (g g1 : Game) (player : String) (evs : List Event),
      chooseWinner g player = .ok (g1, evs) →
      (responseCards g1).Perm (responseCards g)) := by
  constructor
  · intro g g1 name p evs h
    obtain ⟨hperm, hdraw⟩ := upsertPlayer_conserves g g1 name p evs h
    refine ⟨hperm, fun hn => ?_⟩
    obtain ⟨h1, _, h3, h4, h5, h6⟩ := hdraw hn
    exact ⟨h1, h3, h4, h5, h6⟩
  · intro g g1 player evs h
    exact chooseWinner_conserves g g1 player evs h

theorem response_cards_conserved_witness :
    (∃ evs, upsertPlayer sampleAlice "bob" =
        .ok (⟨"bob", 0, ["w7", "w8", "w9", "w10", "w11", "w12", "w13"]⟩, sampleRound, evs)) ∧
    (responseCards sampleRound).Perm (responseCards sampleAlice) ∧
    sampleRound.Whitedeck.length = sampleAlice.Whitedeck.length - 7 ∧
    (∃ evs, chooseWinner sampleRevealed "bob" = .ok (sampleNextRound, evs)) ∧
    (responseCards sampleNextRound).Perm (responseCards sampleRevealed) := by
  have hj : ∃ evs, upsertPlayer sampleAlice "bob" =
      .ok (⟨"bob", 0, ["w7", "w8", "w9", "w10", "w11", "w12", "w13"]⟩, sampleRound, evs) :=
    ⟨_, rfl⟩
  have hc : ∃ evs, chooseWinner sampleRevealed "bob" = .ok (sampleNextRound, evs) := ⟨_, rfl⟩
  obtain ⟨evs1, h1⟩ := hj
  obtain ⟨evs2, h2⟩ := hc
  have hjoin := response_cards_conserved.1 sampleAlice sampleRound "bob" _ evs1 h1
  refine ⟨⟨evs1, h1⟩, hjoin.1, (hjoin.2 (by decide)).2.2.2.1, ⟨evs2, h2⟩,
    response_cards_conserved.2 sampleRevealed sampleNextRound "bob" evs2 h2⟩

/-! ## The shuffled copies of a new game -/

theorem map_getD_range (src : List String) :
    (List.range src.length).map (fun j => src.getD j "") = src := by
  apply List.ext_getElem?
  intro i
  by_cases hi : i < src.length
  · simp [List.getElem?_map, List.getElem?_range hi, List.getElem?_eq_getElem hi]
  · have hle : src.length ≤ i := Nat.le_of_not_lt hi
    rw [List.getElem?_eq_none (by simpa using hle), List.getElem?_eq_none hle]

/-- The shuffle of `newGame` returns a rearrangement of its source. -/
theorem shuffle_perm (src : List String) (perm : List Nat) (h : IsPermOf perm src.length) :
    ∃ l, shuffle src perm = .ok l ∧ l.Perm src ∧ l.length = src.length ∧
      l = perm.map (fun j => src.getD j "") := by
  refine ⟨_, shuffle_ok src perm h, ?_, ?_, rfl⟩
  · have h1 : (perm.map (fun j => src.getD j "")).Perm
        ((List.range src.length).map (fun j => src.getD j "")) := List.Perm.map _ h
    rw [map_getD_range] at h1
    exact h1
  · have := h.length_eq
    simpa using this

/-- C16: creating a game yields permuted copies of the source decks.  For every pair of
permutations returned by the random source both shuffles return a rearrangement, of the
same length, of their source deck, which they only read.  With a non-empty source prompt
deck `newGame` returns a game whose prompt followed by its working prompt deck is the
shuffled prompt deck and whose working response deck is the shuffled response deck; with
an empty one there is no first prompt and `newGame` panics with a slice bound out of
range. -/
theorem newGame_permuted_copy (blackDeck whiteDeck : List String) (permB permW : List Nat)
    (name : String) (hpB : IsPermOf permB blackDeck.length)
    (hpW : IsPermOf permW whiteDeck.length) :
    ∃ black white, shuffle blackDeck permB = .ok black ∧ black.Perm blackDeck ∧
      black.length = blackDeck.length ∧
      shuffle whiteDeck permW = .ok white ∧ white.Perm whiteDeck ∧
      white.length = whiteDeck.length ∧
      (blackDeck = [] →
        newGame blackDeck whiteDeck permB permW name = .error .sliceBoundsOutOfRange) ∧
      (blackDeck ≠ [] →
        ∃ g, newGame blackDeck whiteDeck permB permW name = .ok g ∧
          g.Question :: g.Blackdeck = black ∧ g.Whitedeck = white ∧
          (g.Question :: g.Blackdeck).Perm blackDeck ∧ g.Whitedeck.Perm whiteDeck ∧
          g.Blackdeck.length + 1 = blackDeck.length ∧
          g.Whitedeck.length = whiteDeck.length ∧
          g.Players = [] ∧ g.Submitted = [] ∧ g.Name = name) := by
  obtain ⟨black, hsb, hpb, hlb, hbe⟩ := shuffle_perm blackDeck permB hpB
  obtain ⟨white, hsw, hpw, hlw, hwe⟩ := shuffle_perm whiteDeck permW hpW
  refine ⟨black, white, hsb, hpb, hlb, hsw, hpw, hlw, ?_, ?_⟩
  · intro hnil
    have hb0 : black = [] := by
      apply List.length_eq_zero.mp
      rw [hlb, hnil]
      rfl
    simp only [newGame, hsb, hsw, hb0]
  · intro hne
    obtain ⟨q, rest, hqr, hrest, hg⟩ :=
      newGame_ok blackDeck whiteDeck permB permW name hne hpB hpW
    rw [← hbe] at hqr
    rw [← hwe] at hg
    refine ⟨_, hg, hqr.symm, rfl, ?_, hpw, ?_, hlw, rfl, rfl, rfl⟩
    · simp only
      rw [← hqr]; exact hpb
    · simp only
      have := congrArg List.length hqr
      rw [hlb] at this
      simp only [List.length_cons] at this
      omega

theorem newGame_permuted_copy_witness :
    (IsPermOf [2, 0, 1] sampleBlack.length ∧ IsPermOf [1, 0] ["c", "d"].length ∧
      sampleBlack ≠ []) ∧
    newGame sampleBlack ["c", "d"] [2, 0, 1] [1, 0] "g7" =
      .ok { Name := "g7", Players := [], Question := "q2", CardCzar := "", Submitted := [],
            Blackdeck := ["q0", "q1"], Whitedeck := ["d", "c"] } ∧
    ∃ black white, shuffle sampleBlack [2, 0, 1] = .ok black ∧ black.Perm sampleBlack ∧
      shuffle ["c", "d"] [1, 0] = .ok white ∧ white.Perm ["c", "d"] := by
  refine ⟨⟨by decide, by decide, by decide⟩, rfl, ?_⟩
  obtain ⟨black, white, h1, h2, _, h4, h5, _⟩ :=
    newGame_permuted_copy sampleBlack ["c", "d"] [2, 0, 1] [1, 0] "g7" (by decide) (by decide)
  exact ⟨black, white, h1, h2, h4, h5⟩

end Gocah
